import Mathlib

/-!
Verification of the CMakeLists.txt text-patching helpers of the
vscode-makelist-helper extension (cmakeHelpers.ts: `addToCMake`,
`removeFromCMake`, `addIncludeDirectory`, `removeIncludeDirectory`,
`createMissingSetBlocks`, `findCMakeLists`).

Modelling conventions:
* Document text is a `List Char` (`Text`).  `str` converts a literal.
* The JavaScript regexes are embedded as deterministic scanners.  Each
  regex used by the code is backtracking-free on its inputs whenever the
  interpolated group name consists of identifier characters (`ValidName`),
  so the scanners below compute exactly the regex's first match:
  - `set\(\s*NAME(?:[ \t]|\r?\n)([\s\S]*?)\)`        → `matchSetAt`/`findSetMatch`
  - `include_directories\(([\s\S]*?)\)`              → `matchIncludeAt`/`findIncludeMatch`
  - `project\([^)]+\)`                               → `matchProjectAt`/`findProjectMatch`
  - `set\([^)]+\)` with the `g` flag (`matchAll`)    → `matchSetShapeAt`/`findSetShape`/`lastSetShapeEnd`
* `String.prototype.replace` with a string pattern is embedded as
  first-occurrence replacement (`replaceFirst`), including the
  `GetSubstitution` processing ECMAScript applies to the replacement
  string: `$$`, `$&`, a dollar before a backquote, and a dollar before a
  quote are expanded (`getSubstitution`); with a string pattern the
  capture list is empty and named captures are absent, so `$1`..`$99` and
  dollar-angle sequences stay literal, as does any other `$`.
* Functions that read the file, optionally rewrite it, and return a
  boolean are embedded as `Text → Option Text`: `none` means the function
  returned `false` without writing, `some c` means it returned `true`
  after writing content `c`.
* `findCMakeLists` walks directories; a directory is a `List String` of
  path components below the filesystem root, `dropLast` is `path.dirname`,
  and the workspace test `currentDir.startsWith(workspaceFolder)` is the
  component-prefix test (the two agree on ancestor chains of a path owned
  by the workspace folder).  The filesystem is a predicate saying which
  directories contain a `CMakeLists.txt`.
-/

namespace MakelistHelper

abbrev Text := List Char

def str (s : String) : Text := s.data

/-- Whitespace as matched by the regex class `\s` and trimmed by
`String.prototype.trim` (ASCII part). -/
def isWS (c : Char) : Bool :=
  c = ' ' || c = '\t' || c = '\n' || c = '\r' || c = '\x0b' || c = '\x0c'

/-- JavaScript `line.trim()`. -/
def trim (l : Text) : Text :=
  ((l.dropWhile isWS).reverse.dropWhile isWS).reverse

/-- JavaScript `currentBlock.split('\n').map(line => line.trim()).filter(line => line.length > 0)`:
the entry lines of a block's inner text. -/
def normalizeBlock (inner : Text) : List Text :=
  ((inner.splitOn '\n').map trim).filter (fun l => !l.isEmpty)

def strSet : Text := str "set("

/-- Group names this development reasons about: nonempty strings of
identifier characters.  For such names the interpolated regex
`set\(\s*NAME(?:[ \t]|\r?\n)([\s\S]*?)\)` treats the name literally and
never backtracks into `\s*`, so `matchSetAt` computes its match. -/
def validChar (c : Char) : Bool := c.isAlphanum || c = '_'

def ValidName (name : Text) : Prop := name ≠ [] ∧ ∀ c ∈ name, validChar c = true

/-- Final stage of the `set` regex: the lazy group `([\s\S]*?)\)` — the
inner text runs to the first `)`.  `pre` is the text already matched. -/
def afterSep (pre s : Text) : Option (Text × Text × Text) :=
  match s.dropWhile (fun d => d ≠ ')') with
  | [] => none
  | _ :: s5 => some (pre ++ s.takeWhile (fun d => d ≠ ')') ++ [')'], s.takeWhile (fun d => d ≠ ')'), s5)

/-- Tail of the separator branch `\r\n`: after a `\r` only a following
`\n` lets `\r?\n` match. -/
def crlfScan (pre : Text) : Text → Option (Text × Text × Text)
  | [] => none
  | d :: s5 => if d = '\n' then afterSep (pre ++ ['\r', '\n']) s5 else none

/-- The alternation `(?:[ \t]|\r?\n)` following the group name. -/
def sepScan (pre s : Text) : Option (Text × Text × Text) :=
  match s with
  | [] => none
  | c :: s4 =>
    if c = ' ' ∨ c = '\t' then afterSep (pre ++ [c]) s4
    else if c = '\r' then crlfScan pre s4
    else if c = '\n' then afterSep (pre ++ ['\n']) s4
    else none

/-- Match of `set\(\s*NAME(?:[ \t]|\r?\n)([\s\S]*?)\)` anchored at the
start of `s`.  Returns `(matched, innerGroup, rest)`.  After `set(` the
greedy `\s*` takes the maximal whitespace run (for a `ValidName` the
engine never backtracks into it), then the name, the separator, and the
lazy inner group. -/
def matchSetAt (name s : Text) : Option (Text × Text × Text) :=
  if strSet <+: s then
    if name <+: (s.drop 4).dropWhile isWS then
      sepScan (strSet ++ (s.drop 4).takeWhile isWS ++ name)
        (((s.drop 4).dropWhile isWS).drop name.length)
    else none
  else none

/-- First (leftmost) match of the `set` regex in the document, as
`content.match(regex)` computes it: `(textBeforeMatch, matched, innerGroup, textAfterMatch)`. -/
def findSetMatch (name : Text) : Text → Option (Text × Text × Text × Text)
  | [] => none
  | c :: rest =>
    match matchSetAt name (c :: rest) with
    | some (m, i, r) => some ([], m, i, r)
    | none =>
      match findSetMatch name rest with
      | some (p, m, i, r) => some (c :: p, m, i, r)
      | none => none

/-- Split `s` around the first occurrence of `pat` as a substring
(`s = fst ++ pat ++ snd`), the search `String.prototype.replace` performs
for a string pattern. -/
def splitFirstOcc (pat : Text) : Text → Option (Text × Text)
  | [] => if pat = [] then some ([], []) else none
  | c :: rest =>
    if pat <+: (c :: rest) then some ([], (c :: rest).drop pat.length)
    else
      match splitFirstOcc pat rest with
      | some (p, s) => some (c :: p, s)
      | none => none

/-- Characters that can follow a `$` to form a substitution pattern in a
replacement string when the capture list is empty: `$`, `&`, backquote
(`\x60`, expanding to the text before the match) and quote (`\x27`,
expanding to the text after the match). -/
def dollarSpecial (c : Char) : Bool :=
  c = '$' || c = '&' || c = '\x60' || c = '\x27'

/-- ECMAScript `GetSubstitution` for a string pattern: `matched` is the
matched substring, `before`/`after` the document text around the match.
`$$` yields `$`, `$&` the matched text, dollar-backquote the preceding
text, dollar-quote the following text; any other `$` (including `$1`,
since the capture list is empty, and dollar-angle, since named captures
are absent) is literal. -/
def getSubstitution (matched before after : Text) : Text → Text
  | [] => []
  | c :: rest =>
    if c = '$' then
      match rest with
      | [] => ['$']
      | d :: r2 =>
        if d = '$' then '$' :: getSubstitution matched before after r2
        else if d = '&' then matched ++ getSubstitution matched before after r2
        else if d = '\x60' then before ++ getSubstitution matched before after r2
        else if d = '\x27' then after ++ getSubstitution matched before after r2
        else '$' :: getSubstitution matched before after (d :: r2)
    else c :: getSubstitution matched before after rest

/-- JavaScript `s.replace(pat, repl)` with a string pattern: replace the
first occurrence by `GetSubstitution` of the replacement, return `s`
unchanged when `pat` does not occur. -/
def replaceFirst (s pat repl : Text) : Text :=
  match splitFirstOcc pat s with
  | some (p, sf) => p ++ getSubstitution pat p sf repl ++ sf
  | none => s

/-- Replacement strings on which `GetSubstitution` is the identity: no
`$` is immediately followed by one of the four substitution characters. -/
def DollarTame (r : Text) : Prop :=
  List.Chain' (fun x y => x = '$' → dollarSpecial y = false) r

/-- The canonical quoted relative path `"<relativePath>"` that
`addToCMake`/`removeFromCMake` compute for a target file. -/
def quote (rel : Text) : Text := '"' :: (rel ++ ['"'])

/-- cmakeHelpers.ts `addToCMake(cmakePath, filePath)`, after the quoted
relative path and the mapped group name have been computed.  `none`
models `return false` with no write; `some c` models writing `c` and
`return true`. -/
def addToCMake (name qpath content : Text) : Option Text :=
  match findSetMatch name content with
  | none => none
  | some (_, m, inner, _) =>
    let nb := normalizeBlock inner
    if qpath ∈ nb then none
    else
      let newBlock :=
        if (trim nb.flatten).isEmpty then
          strSet ++ name ++ str "\n    " ++ qpath ++ str "\n)"
        else
          strSet ++ name ++ str "\n    " ++ List.intercalate (str "\n    ") nb
            ++ str "\n    " ++ qpath ++ str "\n)"
      some (replaceFirst content m newBlock)

/-- cmakeHelpers.ts `removeFromCMake(cmakePath, filePath)`, embedded like
`addToCMake`. -/
def removeFromCMake (name qpath content : Text) : Option Text :=
  match findSetMatch name content with
  | none => none
  | some (_, m, inner, _) =>
    let nb := normalizeBlock inner
    if qpath ∈ nb then
      let updated := nb.filter (fun l => l ≠ qpath)
      let newBlock :=
        if updated.isEmpty then strSet ++ name ++ str "\n)"
        else
          strSet ++ name ++ str "\n    " ++ List.intercalate (str "\n    ") updated ++ str "\n)"
      some (replaceFirst content m newBlock)
    else none

def strIncl : Text := str "include_directories("

/-- Match of `include_directories\(([\s\S]*?)\)` anchored at the start of
`s`: `(matched, innerGroup, rest)`. -/
def matchIncludeAt (s : Text) : Option (Text × Text × Text) :=
  if strIncl <+: s then afterSep strIncl (s.drop strIncl.length)
  else none

/-- Leftmost match of the include regex in the document:
`(textBefore, matched, innerGroup, textAfter)`. -/
def findIncludeMatch : Text → Option (Text × Text × Text × Text)
  | [] => none
  | c :: rest =>
    match matchIncludeAt (c :: rest) with
    | some (m, i, r) => some ([], m, i, r)
    | none =>
      match findIncludeMatch rest with
      | some (p, m, i, r) => some (c :: p, m, i, r)
      | none => none

def strProject : Text := str "project("

/-- Match of `project\([^)]+\)` anchored at the start of `s`:
`(matched, rest)`. -/
def matchProjectAt (s : Text) : Option (Text × Text) :=
  if strProject <+: s then
    let s1 := s.drop strProject.length
    let run := s1.takeWhile (fun d => d ≠ ')')
    if run.isEmpty then none
    else
      match s1.dropWhile (fun d => d ≠ ')') with
      | [] => none
      | _ :: s5 => some (strProject ++ run ++ [')'], s5)
  else none

/-- Leftmost match of `project\([^)]+\)`: `(textBefore, matched, textAfter)`. -/
def findProjectMatch : Text → Option (Text × Text × Text)
  | [] => none
  | c :: rest =>
    match matchProjectAt (c :: rest) with
    | some (m, r) => some ([], m, r)
    | none =>
      match findProjectMatch rest with
      | some (p, m, r) => some (c :: p, m, r)
      | none => none

/-- The 'composite entry string' `${CMAKE_CURRENT_SOURCE_DIR}/<relativePath>`
used by the include-directory operations. -/
def includeEntry (rel : Text) : Text := str "$\x7bCMAKE_CURRENT_SOURCE_DIR\x7d/" ++ rel

/-- cmakeHelpers.ts `addIncludeDirectory(cmakePath, dirPath)` after the
composite entry has been computed.  When no `include_directories(...)`
block exists the function creates one inline (after `project(...)` if
present, else at the top) and still returns `true`. -/
def addIncludeDirectory (entry content : Text) : Option Text :=
  match findIncludeMatch content with
  | none =>
    match findProjectMatch content with
    | some (pre, m, suf) =>
      some (pre ++ m ++ str "\n\ninclude_directories(\n    " ++ entry ++ str "\n)" ++ suf)
    | none =>
      some (str "include_directories(\n    " ++ entry ++ str "\n)\n\n" ++ content)
  | some (_, m, inner, _) =>
    let nb := normalizeBlock inner
    if entry ∈ nb then none
    else
      let newBlock :=
        if (trim nb.flatten).isEmpty then
          strIncl ++ str "\n    " ++ entry ++ str "\n)"
        else
          strIncl ++ str "\n    " ++ List.intercalate (str "\n    ") nb
            ++ str "\n    " ++ entry ++ str "\n)"
      some (replaceFirst content m newBlock)

/-- cmakeHelpers.ts `removeIncludeDirectory(cmakePath, dirPath)`. -/
def removeIncludeDirectory (entry content : Text) : Option Text :=
  match findIncludeMatch content with
  | none => none
  | some (_, m, inner, _) =>
    let nb := normalizeBlock inner
    if entry ∈ nb then
      let updated := nb.filter (fun l => l ≠ entry)
      let newBlock :=
        if updated.isEmpty then strIncl ++ str "\n)"
        else strIncl ++ str "\n    " ++ List.intercalate (str "\n    ") updated ++ str "\n)"
      some (replaceFirst content m newBlock)
    else none

/-- Match of the loose shape regex `set\([^)]+\)` anchored at the start of
`s`: `(matched, rest)`. -/
def matchSetShapeAt (s : Text) : Option (Text × Text) :=
  if strSet <+: s then
    let s1 := s.drop 4
    let run := s1.takeWhile (fun d => d ≠ ')')
    if run.isEmpty then none
    else
      match s1.dropWhile (fun d => d ≠ ')') with
      | [] => none
      | _ :: s5 => some (strSet ++ run ++ [')'], s5)
  else none

/-- Leftmost match of `set\([^)]+\)`: `(textBefore, matched, textAfter)`. -/
def findSetShape : Text → Option (Text × Text × Text)
  | [] => none
  | c :: rest =>
    match matchSetShapeAt (c :: rest) with
    | some (m, r) => some ([], m, r)
    | none =>
      match findSetShape rest with
      | some (p, m, r) => some (c :: p, m, r)
      | none => none

/-- End offset of the last match `content.matchAll(/set\([^)]+\)/g)`
produces, scanning successive leftmost non-overlapping matches.  Fuel
bounds the recursion; `content.length` is always enough because every
match is nonempty. -/
def lastSetShapeEndAux : Nat → Text → Option Nat
  | 0, _ => none
  | fuel + 1, s =>
    match findSetShape s with
    | none => none
    | some (p, m, suf) =>
      some (p.length + m.length + (lastSetShapeEndAux fuel suf).getD 0)

def lastSetShapeEnd (s : Text) : Option Nat := lastSetShapeEndAux s.length s

/-- The concatenated text of the synthesized blocks:
`Array.from(missingBlocks).map(block => `set(${block}\n)\n`).join('\n')`. -/
def blocksText (blocks : List Text) : Text :=
  List.intercalate (str "\n") (blocks.map (fun b => strSet ++ b ++ str "\n)\n"))

/-- cmakeHelpers.ts `createMissingSetBlocks(cmakePath, missingBlocks)`:
insert the synthesized empty blocks after the last `set(...)` shape, else
after `project(...)`, else at the top of the file. -/
def createMissingSetBlocks (blocks : List Text) (content : Text) : Text :=
  match lastSetShapeEnd content with
  | some e => content.take e ++ str "\n\n" ++ blocksText blocks ++ content.drop e
  | none =>
    match findProjectMatch content with
    | some (pre, m, suf) => pre ++ m ++ str "\n\n" ++ blocksText blocks ++ suf
    | none => blocksText blocks ++ str "\n\n" ++ content

def cmakeName : String := "CMakeLists.txt"

/-- Loop body of cmakeHelpers.ts `findCMakeLists`: walk from `d` towards
the root while the directory is nonroot and inside the workspace folder,
collecting `<dir>/CMakeLists.txt` for every directory that has one.
`fuel ≥ d.length` makes the fuel irrelevant. -/
def findCMakeListsAux (hasManifest : List String → Bool) (wf : List String) :
    Nat → List String → List (List String)
  | 0, _ => []
  | fuel + 1, d =>
    if d ≠ [] ∧ wf <+: d then
      (if hasManifest d then [d ++ [cmakeName]] else []) ++
        findCMakeListsAux hasManifest wf fuel d.dropLast
    else []

/-- cmakeHelpers.ts `findCMakeLists(startPath)`.  `wfOpt` is the result of
`vscode.workspace.getWorkspaceFolder` on the start path (`none` when no
workspace folder owns it, in which case the loop condition is false at
once and the result is empty). -/
def findCMakeLists (hasManifest : List String → Bool) (wfOpt : Option (List String))
    (startPath : List String) : List (List String) :=
  match wfOpt with
  | none => []
  | some wf => findCMakeListsAux hasManifest wf startPath.length startPath

/-- Chain of ancestor directories of `d`, from `d` itself up to the root
`[]`: the prefixes of `d`, longest first. -/
def ancestors (d : List String) : List (List String) :=
  (List.range (d.length + 1)).reverse.map (fun k => d.take k)

/-- The entry list the engine extracts for a named block: located block's
inner group, split into trimmed nonempty lines. -/
def extractEntries (name content : Text) : Option (List Text) :=
  (findSetMatch name content).map (fun x => normalizeBlock x.2.2.1)

/-- Shape matched by `set\([^)]+\)`. -/
def IsSetShape (sh : Text) : Prop :=
  ∃ run, sh = strSet ++ run ++ [')'] ∧ run ≠ [] ∧ ')' ∉ run

/-- The separators accepted by the alternation `(?:[ \t]|\r?\n)`. -/
def IsSep (sep : Text) : Prop :=
  sep = [' '] ∨ sep = ['\t'] ∨ sep = ['\r', '\n'] ∨ sep = ['\n']

/-- Whether a `set` regex attempt succeeds at a position that reads text
`u` followed by `set(` followed by text containing a `)`: the outcome is
a function of `u` and the name alone.  This drives the frame argument
that splicing a rebuilt block (which also starts with `set(` and contains
a `)`) neither creates nor destroys matches at earlier positions. -/
def probeCond (name u : Text) : Bool :=
  if strSet <+: (u ++ strSet) then
    if name <+: (((u ++ strSet).drop 4).dropWhile isWS)
        ∧ name.length < (((u ++ strSet).drop 4).dropWhile isWS).length then
      match (((u ++ strSet).drop 4).dropWhile isWS).drop name.length with
      | [] => false
      | c :: rest =>
        if c = ' ' ∨ c = '\t' then true
        else if c = '\r' then
          match rest with
          | [] => false
          | d :: _ => decide (d = '\n')
        else decide (c = '\n')
    else false
  else false

end MakelistHelper

namespace MakelistHelper

theorem takeWhile_app_of_all {p : Char → Bool} {a : Text} (b : Text)
    (h : ∀ c ∈ a, p c = true) : (a ++ b).takeWhile p = a ++ b.takeWhile p := by
  induction a with
  | nil => simp
  | cons x xs ih =>
    have hx : p x = true := h x (List.mem_cons_self x xs)
    simp only [List.cons_append, List.takeWhile_cons, hx, if_true]
    rw [ih fun c hc => h c (List.mem_cons_of_mem x hc)]

theorem dropWhile_app_of_all {p : Char → Bool} {a : Text} (b : Text)
    (h : ∀ c ∈ a, p c = true) : (a ++ b).dropWhile p = b.dropWhile p := by
  induction a with
  | nil => simp
  | cons x xs ih =>
    have hx : p x = true := h x (List.mem_cons_self x xs)
    simp only [List.cons_append, List.dropWhile_cons, hx, if_true]
    exact ih fun c hc => h c (List.mem_cons_of_mem x hc)

theorem takeWhile_app_of_stop {p : Char → Bool} {a : Text} (b : Text)
    (h : ∃ c ∈ a, p c = false) : (a ++ b).takeWhile p = a.takeWhile p := by
  induction a with
  | nil => simp at h
  | cons x xs ih =>
    cases hx : p x with
    | false => simp [List.takeWhile_cons, hx]
    | true =>
      rcases h with ⟨c, hc, hpc⟩
      rcases List.mem_cons.mp hc with rfl | hc'
      · rw [hx] at hpc; cases hpc
      · simp only [List.cons_append, List.takeWhile_cons, hx, if_true]
        rw [ih ⟨c, hc', hpc⟩]

theorem dropWhile_app_of_stop {p : Char → Bool} {a : Text} (b : Text)
    (h : ∃ c ∈ a, p c = false) : (a ++ b).dropWhile p = a.dropWhile p ++ b := by
  induction a with
  | nil => simp at h
  | cons x xs ih =>
    cases hx : p x with
    | false => simp [List.dropWhile_cons, hx]
    | true =>
      rcases h with ⟨c, hc, hpc⟩
      rcases List.mem_cons.mp hc with rfl | hc'
      · rw [hx] at hpc; cases hpc
      · simp only [List.cons_append, List.dropWhile_cons, hx, if_true]
        exact ih ⟨c, hc', hpc⟩

theorem dropWhile_head_false {p : Char → Bool} {l : Text} {c : Char}
    (h : (l.dropWhile p).head? = some c) : p c = false := by
  induction l with
  | nil => simp at h
  | cons x xs ih =>
    cases hx : p x with
    | false =>
      rw [List.dropWhile_cons, hx] at h
      simp at h
      exact h ▸ hx
    | true =>
      rw [List.dropWhile_cons, hx] at h
      exact ih (by simpa using h)

theorem mem_of_mem_dropWhile {p : Char → Bool} {l : Text} {c : Char}
    (h : c ∈ l.dropWhile p) : c ∈ l :=
  (List.dropWhile_sublist p).mem h

theorem mem_of_mem_takeWhile {p : Char → Bool} {l : Text} {c : Char}
    (h : c ∈ l.takeWhile p) : c ∈ l :=
  (List.takeWhile_sublist p).mem h

theorem mem_of_mem_trim {l : Text} {c : Char} (h : c ∈ trim l) : c ∈ l := by
  unfold trim at h
  rw [List.mem_reverse] at h
  have h2 := mem_of_mem_dropWhile h
  rw [List.mem_reverse] at h2
  exact mem_of_mem_dropWhile h2

theorem dropWhile_eq_self_of_head {p : Char → Bool} {l : Text}
    (h : ∀ c, l.head? = some c → p c = false) : l.dropWhile p = l := by
  cases l with
  | nil => rfl
  | cons x xs =>
    rw [List.dropWhile_cons, h x rfl]
    simp

theorem trim_eq_self_of {l : Text}
    (h1 : ∀ c, l.head? = some c → isWS c = false)
    (h2 : ∀ c, l.getLast? = some c → isWS c = false) : trim l = l := by
  unfold trim
  rw [dropWhile_eq_self_of_head h1]
  rw [dropWhile_eq_self_of_head (fun c hc => h2 c (by rwa [List.head?_reverse] at hc))]
  exact List.reverse_reverse l

theorem quote_last (rel : Text) : (quote rel).getLast? = some '"' := by
  have hq : quote rel = ('"' :: rel) ++ ['"'] := by simp [quote]
  rw [hq, List.getLast?_append_of_ne_nil _ (by simp)]
  rfl

theorem trim_quote (rel : Text) : trim (quote rel) = quote rel := by
  apply trim_eq_self_of
  · intro c hc
    simp only [quote, List.head?_cons, Option.some.injEq] at hc
    subst hc; decide
  · intro c hc
    rw [quote_last rel] at hc
    cases hc; decide

theorem trim_app_ws {w : Text} (l : Text) (h : ∀ c ∈ w, isWS c = true) :
    trim (w ++ l) = trim l := by
  unfold trim
  rw [dropWhile_app_of_all l h]

theorem trim_head_false {l : Text} {c : Char} (h : (trim l).head? = some c) :
    isWS c = false := by
  unfold trim at h
  set X := l.dropWhile isWS with hX
  set Y := X.reverse.dropWhile isWS with hY
  rw [List.head?_reverse] at h
  have hYne : Y ≠ [] := by
    intro he
    rw [he] at h
    simp at h
  have hdec : X.reverse.takeWhile isWS ++ Y = X.reverse :=
    List.takeWhile_append_dropWhile isWS X.reverse
  have : X.reverse.getLast? = Y.getLast? := by
    rw [← hdec]
    exact List.getLast?_append_of_ne_nil _ hYne
  rw [← this] at h
  rw [List.getLast?_reverse] at h
  exact dropWhile_head_false h

theorem trim_last_false {l : Text} {c : Char} (h : (trim l).getLast? = some c) :
    isWS c = false := by
  unfold trim at h
  rw [List.getLast?_reverse] at h
  exact dropWhile_head_false h

theorem trim_trim (l : Text) : trim (trim l) = trim l := by
  apply trim_eq_self_of
  · exact fun c hc => trim_head_false hc
  · exact fun c hc => trim_last_false hc

theorem trim_eq_nil_all_ws {l : Text} (h : trim l = []) : ∀ c ∈ l, isWS c = true := by
  unfold trim at h
  have h1 : (l.dropWhile isWS).reverse.dropWhile isWS = [] := by
    have := congrArg List.reverse h
    rwa [List.reverse_reverse, List.reverse_nil] at this
  have h2 : ∀ c ∈ (l.dropWhile isWS).reverse, isWS c = true :=
    List.dropWhile_eq_nil_iff.mp h1
  intro c hc
  rcases List.mem_append.mp (by rw [List.takeWhile_append_dropWhile (p := isWS)]; exact hc :
      c ∈ l.takeWhile isWS ++ l.dropWhile isWS) with h3 | h3
  · exact List.mem_takeWhile_imp h3
  · exact h2 c (List.mem_reverse.mpr h3)

theorem trim_ne_nil_of {l : Text} {c : Char} (hc : c ∈ l) (hws : isWS c = false) :
    trim l ≠ [] := by
  intro h
  rw [trim_eq_nil_all_ws h c hc] at hws
  cases hws

end MakelistHelper

namespace MakelistHelper

theorem splitOnP_mem_sub {p : Char → Bool} :
    ∀ {l q : Text}, q ∈ l.splitOnP p → ∀ c ∈ q, c ∈ l := by
  intro l
  induction l with
  | nil =>
    intro q hq c hc
    rw [List.splitOnP_nil] at hq
    simp at hq
    subst hq
    simp at hc
  | cons x xs ih =>
    intro q hq c hc
    rw [List.splitOnP_cons] at hq
    by_cases hx : p x
    · rw [if_pos hx] at hq
      rcases List.mem_cons.mp hq with rfl | hq'
      · simp at hc
      · exact List.mem_cons_of_mem x (ih hq' c hc)
    · rw [if_neg hx] at hq
      cases hsp : xs.splitOnP p with
      | nil => exact absurd hsp (List.splitOnP_ne_nil p xs)
      | cons h t =>
        rw [hsp] at hq
        simp only [List.modifyHead] at hq
        rcases List.mem_cons.mp hq with rfl | hq'
        · rcases List.mem_cons.mp hc with rfl | hc'
          · exact List.mem_cons_self c xs
          · exact List.mem_cons_of_mem x (ih (hsp ▸ List.mem_cons_self h t) c hc')
        · exact List.mem_cons_of_mem x (ih (hsp ▸ List.mem_cons_of_mem h hq') c hc)

theorem splitOnP_mem_false {p : Char → Bool} :
    ∀ {l q : Text}, q ∈ l.splitOnP p → ∀ c ∈ q, p c = false := by
  intro l
  induction l with
  | nil =>
    intro q hq c hc
    rw [List.splitOnP_nil] at hq
    simp at hq
    subst hq
    simp at hc
  | cons x xs ih =>
    intro q hq c hc
    rw [List.splitOnP_cons] at hq
    by_cases hx : p x
    · rw [if_pos hx] at hq
      rcases List.mem_cons.mp hq with rfl | hq'
      · simp at hc
      · exact ih hq' c hc
    · rw [if_neg hx] at hq
      cases hsp : xs.splitOnP p with
      | nil => exact absurd hsp (List.splitOnP_ne_nil p xs)
      | cons h t =>
        rw [hsp] at hq
        simp only [List.modifyHead] at hq
        rcases List.mem_cons.mp hq with rfl | hq'
        · rcases List.mem_cons.mp hc with rfl | hc'
          · exact Bool.eq_false_iff.mpr hx
          · exact ih (hsp ▸ List.mem_cons_self h t) c hc'
        · exact ih (hsp ▸ List.mem_cons_of_mem h hq') c hc

theorem splitOn_mem_sub {l q : Text} (hq : q ∈ l.splitOn '\n') :
    ∀ c ∈ q, c ∈ l :=
  splitOnP_mem_sub hq

theorem splitOn_mem_ne {l q : Text} (hq : q ∈ l.splitOn '\n') :
    ∀ c ∈ q, c ≠ '\n' := by
  intro c hc
  have := splitOnP_mem_false hq c hc
  simpa using this

theorem normalizeBlock_mem {inner e : Text} (he : e ∈ normalizeBlock inner) :
    trim e = e ∧ e ≠ [] ∧ ∀ c ∈ e, c ∈ inner ∧ c ≠ '\n' := by
  unfold normalizeBlock at he
  rcases List.mem_filter.mp he with ⟨he1, he2⟩
  rcases List.mem_map.mp he1 with ⟨q, hq, rfl⟩
  refine ⟨trim_trim q, ?_, ?_⟩
  · intro h
    rw [h] at he2
    simp at he2
  · intro c hc
    exact ⟨splitOn_mem_sub hq c (mem_of_mem_trim hc),
      splitOn_mem_ne hq c (mem_of_mem_trim hc)⟩

theorem intercalate_cons₂ (sep a : Text) (l : List Text) (h : l ≠ []) :
    List.intercalate sep (a :: l) = a ++ sep ++ List.intercalate sep l := by
  cases l with
  | nil => cases h rfl
  | cons b t =>
    simp [List.intercalate, List.intersperse_cons_cons, List.append_assoc]

theorem map_indent_intercalate (es : List Text) (hne : es ≠ []) :
    str "    " ++ List.intercalate (str "\n    ") es =
      List.intercalate ['\n'] (es.map (fun e => str "    " ++ e)) := by
  induction es with
  | nil => cases hne rfl
  | cons a t ih =>
    cases t with
    | nil => simp [List.intercalate]
    | cons b t' =>
      rw [intercalate_cons₂ (str "\n    ") a (b :: t') (by simp), List.map_cons,
        intercalate_cons₂ ['\n'] (str "    " ++ a) (List.map (fun e => str "    " ++ e) (b :: t'))
          (by simp), ← ih (by simp)]
      show str "    " ++ (a ++ ('\n' :: str "    ") ++ _) = _
      simp [List.append_assoc]

theorem intercalate_app_nil (zs : List Text) (h : zs ≠ []) :
    List.intercalate ['\n'] (zs ++ [[]]) = List.intercalate ['\n'] zs ++ ['\n'] := by
  induction zs with
  | nil => cases h rfl
  | cons a t ih =>
    cases t with
    | nil => simp [List.intercalate]
    | cons b t' =>
      rw [List.cons_append, intercalate_cons₂ ['\n'] a ((b :: t') ++ [[]]) (by simp),
        intercalate_cons₂ ['\n'] a (b :: t') (by simp), ih (by simp)]
      simp [List.append_assoc]

theorem indent_ws : ∀ c ∈ str "    ", isWS c = true := by decide

theorem trim_nil : trim [] = [] := rfl

theorem normalizeBlock_nil : normalizeBlock [] = [] := by decide

theorem normalizeBlock_rebuilt (es : List Text) (hne : es ≠ [])
    (h : ∀ e ∈ es, trim e = e ∧ e ≠ [] ∧ '\n' ∉ e) :
    normalizeBlock (str "    " ++ List.intercalate (str "\n    ") es ++ str "\n") = es := by
  have h1 : str "    " ++ List.intercalate (str "\n    ") es ++ str "\n"
      = List.intercalate ['\n'] (es.map (fun e => str "    " ++ e) ++ [[]]) := by
    rw [intercalate_app_nil _ (by simpa using hne), ← map_indent_intercalate es hne]
    rfl
  rw [h1]
  unfold normalizeBlock
  have hx : ∀ l ∈ (es.map (fun e => str "    " ++ e) ++ [[]]), '\n' ∉ l := by
    intro l hl
    rcases List.mem_append.mp hl with hl' | hl'
    · rcases List.mem_map.mp hl' with ⟨e, he, rfl⟩
      intro hmem
      rcases List.mem_append.mp hmem with hin | hin
      · revert hin
        decide
      · exact (h e he).2.2 hin
    · simp at hl'
      subst hl'
      simp
  have hsp := List.splitOn_intercalate (es.map (fun e => str "    " ++ e) ++ [[]]) '\n' hx
    (by simp)
  rw [hsp]
  rw [List.map_append, List.filter_append]
  have h2 : (es.map (fun e => str "    " ++ e)).map trim = es := by
    rw [List.map_map]
    have : ∀ e ∈ es, (trim ∘ fun e => str "    " ++ e) e = e := by
      intro e he
      show trim (str "    " ++ e) = e
      rw [trim_app_ws e indent_ws]
      exact (h e he).1
    calc es.map (trim ∘ fun e => str "    " ++ e) = es.map id := List.map_congr_left this
    _ = es := List.map_id es
  rw [h2]
  have h3 : List.filter (fun l => !l.isEmpty) es = es := by
    rw [List.filter_eq_self]
    intro a ha
    have := (h a ha).2.1
    simpa using this
  rw [h3]
  simp [trim_nil]

end MakelistHelper

namespace MakelistHelper

theorem validChar_not_ws {c : Char} (h : validChar c = true) : isWS c = false := by
  cases hw : isWS c with
  | false => rfl
  | true =>
    exfalso
    have hcases : c = ' ' ∨ c = '\t' ∨ c = '\n' ∨ c = '\r' ∨ c = '\x0b' ∨ c = '\x0c' := by
      simpa [isWS, or_assoc] using hw
    rcases hcases with rfl | rfl | rfl | rfl | rfl | rfl <;> exact absurd h (by decide)

theorem validName_head {name : Text} (h : ValidName name) :
    ∃ n0 nr, name = n0 :: nr ∧ isWS n0 = false ∧ validChar n0 = true := by
  obtain ⟨hne, hall⟩ := h
  cases name with
  | nil => cases hne rfl
  | cons n0 nr =>
    have hv := hall n0 (List.mem_cons_self n0 nr)
    exact ⟨n0, nr, rfl, validChar_not_ws hv, hv⟩

theorem validName_no_lpar {name : Text} (h : ValidName name) : '(' ∉ name := by
  intro hmem
  exact absurd (h.2 '(' hmem) (by decide)

theorem pfx_drop {a s : Text} (h : a <+: s) : s = a ++ s.drop a.length := by
  obtain ⟨t, rfl⟩ := h
  rw [List.drop_left]

theorem pfx_left (a b : Text) : a <+: a ++ b :=
  ⟨b, rfl⟩

theorem pfx_of_pfx_le {x y z : Text} (h1 : x <+: z) (h2 : y <+: z)
    (h : x.length ≤ y.length) : x <+: y :=
  List.prefix_of_prefix_length_le h1 h2 h

theorem pfx_eq_of_len {x y : Text} (h : x <+: y) (hl : x.length = y.length) : x = y :=
  List.IsPrefix.eq_of_length h hl

theorem pfx_app_iff {p a : Text} (b : Text) (h : p.length ≤ a.length) :
    p <+: (a ++ b) ↔ p <+: a := by
  constructor
  · intro hp
    exact pfx_of_pfx_le hp (pfx_left a b) h
  · intro hp
    exact hp.trans (pfx_left a b)

theorem ne_rpar_all {inner : Text} (hin : ')' ∉ inner) :
    ∀ c ∈ inner, (fun d => decide (d ≠ ')')) c = true := by
  intro c hc
  simp only [decide_eq_true_eq]
  intro hrfl
  exact hin (hrfl ▸ hc)

theorem afterSep_decomp {pre s m inner rest : Text}
    (h : afterSep pre s = some (m, inner, rest)) :
    s = inner ++ ')' :: rest ∧ m = pre ++ inner ++ [')'] ∧ ')' ∉ inner := by
  unfold afterSep at h
  cases hd : s.dropWhile (fun d => d ≠ ')') with
  | nil => rw [hd] at h; cases h
  | cons r s5 =>
    rw [hd] at h
    simp only [Option.some.injEq, Prod.mk.injEq] at h
    obtain ⟨hm, hi, hr⟩ := h
    have hr' : r = ')' := by
      have := dropWhile_head_false (p := fun d => decide (d ≠ ')')) (by rw [hd]; rfl)
      simpa using this
    subst hr'
    subst hr
    refine ⟨?_, ?_, ?_⟩
    · conv_lhs => rw [← List.takeWhile_append_dropWhile (fun d => decide (d ≠ ')')) s]
      rw [hd, hi]
    · rw [← hm, hi]
    · rw [← hi]
      intro hc
      have := List.mem_takeWhile_imp hc
      simp at this

theorem afterSep_run (pre inner t : Text) (hin : ')' ∉ inner) :
    afterSep pre (inner ++ ')' :: t) = some (pre ++ inner ++ [')'], inner, t) := by
  have htw : (inner ++ ')' :: t).takeWhile (fun d => decide (d ≠ ')')) = inner := by
    rw [takeWhile_app_of_all _ (ne_rpar_all hin)]
    simp [List.takeWhile_cons]
  have hdw : (inner ++ ')' :: t).dropWhile (fun d => decide (d ≠ ')')) = ')' :: t := by
    rw [dropWhile_app_of_all _ (ne_rpar_all hin)]
    simp [List.dropWhile_cons]
  unfold afterSep
  rw [hdw, htw]

theorem sepScan_decomp {pre s3 m inner rest : Text}
    (h : sepScan pre s3 = some (m, inner, rest)) :
    ∃ sep, IsSep sep ∧ s3 = sep ++ inner ++ ')' :: rest ∧
      m = pre ++ sep ++ inner ++ [')'] ∧ ')' ∉ inner := by
  cases s3 with
  | nil => simp [sepScan] at h
  | cons c s4 =>
    simp only [sepScan] at h
    by_cases hc1 : c = ' ' ∨ c = '\t'
    · rw [if_pos hc1] at h
      obtain ⟨h1, h2, h3⟩ := afterSep_decomp h
      refine ⟨[c], ?_, by rw [h1]; simp, by rw [h2], h3⟩
      rcases hc1 with rfl | rfl
      · exact Or.inl rfl
      · exact Or.inr (Or.inl rfl)
    · rw [if_neg hc1] at h
      by_cases hc2 : c = '\r'
      · rw [if_pos hc2] at h
        cases s4 with
        | nil => simp [crlfScan] at h
        | cons d s5 =>
          simp only [crlfScan] at h
          by_cases hd : d = '\n'
          · rw [if_pos hd] at h
            obtain ⟨h1, h2, h3⟩ := afterSep_decomp h
            subst hc2
            subst hd
            exact ⟨['\r', '\n'], Or.inr (Or.inr (Or.inl rfl)), by rw [h1]; simp,
              by rw [h2], h3⟩
          · rw [if_neg hd] at h; cases h
      · rw [if_neg hc2] at h
        by_cases hc3 : c = '\n'
        · rw [if_pos hc3] at h
          obtain ⟨h1, h2, h3⟩ := afterSep_decomp h
          subst hc3
          exact ⟨['\n'], Or.inr (Or.inr (Or.inr rfl)), by rw [h1]; simp,
            by rw [h2], h3⟩
        · rw [if_neg hc3] at h; cases h

theorem sepScan_sp (pre s : Text) : sepScan pre (' ' :: s) = afterSep (pre ++ [' ']) s := rfl

theorem sepScan_tab (pre s : Text) : sepScan pre ('\t' :: s) = afterSep (pre ++ ['\t']) s := rfl

theorem sepScan_crlf (pre s : Text) :
    sepScan pre ('\r' :: '\n' :: s) = afterSep (pre ++ ['\r', '\n']) s := rfl

theorem sepScan_lf (pre s : Text) : sepScan pre ('\n' :: s) = afterSep (pre ++ ['\n']) s := rfl

theorem sepScan_run (pre sep inner t : Text) (hsep : IsSep sep) (hin : ')' ∉ inner) :
    sepScan pre (sep ++ inner ++ ')' :: t) = some (pre ++ sep ++ inner ++ [')'], inner, t) := by
  rcases hsep with rfl | rfl | rfl | rfl
  · show sepScan pre (' ' :: (inner ++ ')' :: t)) = _
    rw [sepScan_sp, afterSep_run _ _ _ hin]
  · show sepScan pre ('\t' :: (inner ++ ')' :: t)) = _
    rw [sepScan_tab, afterSep_run _ _ _ hin]
  · show sepScan pre ('\r' :: '\n' :: (inner ++ ')' :: t)) = _
    rw [sepScan_crlf, afterSep_run _ _ _ hin]
  · show sepScan pre ('\n' :: (inner ++ ')' :: t)) = _
    rw [sepScan_lf, afterSep_run _ _ _ hin]

end MakelistHelper

namespace MakelistHelper

theorem strSet_len : strSet.length = 4 := rfl

theorem matchSetAt_nil (name : Text) : matchSetAt name [] = none := by
  unfold matchSetAt
  rw [if_neg (by decide)]

theorem matchSetAt_decomp {name s m inner rest : Text}
    (h : matchSetAt name s = some (m, inner, rest)) :
    s = m ++ rest ∧ ')' ∉ inner ∧
      ∃ ws sep, m = strSet ++ ws ++ name ++ sep ++ inner ++ [')'] ∧
        (∀ c ∈ ws, isWS c = true) ∧ IsSep sep := by
  unfold matchSetAt at h
  by_cases h1 : strSet <+: s
  case neg => rw [if_neg h1] at h; cases h
  rw [if_pos h1] at h
  by_cases h2 : name <+: (s.drop 4).dropWhile isWS
  case neg => rw [if_neg h2] at h; cases h
  rw [if_pos h2] at h
  obtain ⟨sep, hsep, hs3, hm, hin⟩ := sepScan_decomp h
  refine ⟨?_, hin, (s.drop 4).takeWhile isWS, sep,
    by rw [hm], fun c hc => List.mem_takeWhile_imp hc, hsep⟩
  have e1 := pfx_drop h1
  rw [strSet_len] at e1
  have e3 := pfx_drop h2
  have eB : s.drop 4 = (s.drop 4).takeWhile isWS ++ (s.drop 4).dropWhile isWS :=
    (List.takeWhile_append_dropWhile isWS (s.drop 4)).symm
  have base : s = strSet ++ ((s.drop 4).takeWhile isWS
      ++ (name ++ (((s.drop 4).dropWhile isWS).drop name.length))) :=
    e1.trans (congrArg (strSet ++ ·)
      (eB.trans (congrArg ((s.drop 4).takeWhile isWS ++ ·) e3)))
  rw [hm]
  conv_lhs => rw [base, hs3]
  simp [List.append_assoc]

theorem matchSetAt_run {name : Text} (ws sep inner t : Text)
    (hn : ValidName name) (hws : ∀ c ∈ ws, isWS c = true) (hsep : IsSep sep)
    (hin : ')' ∉ inner) :
    matchSetAt name ((strSet ++ ws ++ name ++ sep ++ inner ++ [')']) ++ t) =
      some (strSet ++ ws ++ name ++ sep ++ inner ++ [')'], inner, t) := by
  obtain ⟨n0, nr, hname, hn0, _⟩ := validName_head hn
  have harg : (strSet ++ ws ++ name ++ sep ++ inner ++ [')']) ++ t
      = strSet ++ (ws ++ (name ++ (sep ++ inner ++ ')' :: t))) := by
    simp [List.append_assoc]
  have hdrop : (strSet ++ (ws ++ (name ++ (sep ++ inner ++ ')' :: t)))).drop 4
      = ws ++ (name ++ (sep ++ inner ++ ')' :: t)) := by
    have := List.drop_left strSet (ws ++ (name ++ (sep ++ inner ++ ')' :: t)))
    rwa [strSet_len] at this
  have htw : (ws ++ (name ++ (sep ++ inner ++ ')' :: t))).takeWhile isWS = ws := by
    rw [takeWhile_app_of_all _ hws, hname]
    simp [List.takeWhile_cons, hn0]
  have hdw : (ws ++ (name ++ (sep ++ inner ++ ')' :: t))).dropWhile isWS
      = name ++ (sep ++ inner ++ ')' :: t) := by
    rw [dropWhile_app_of_all _ hws]
    conv_lhs => rw [hname]
    rw [List.cons_append, List.dropWhile_cons, hn0]
    rw [if_neg (by simp)]
    rw [hname, List.cons_append]
  rw [harg]
  unfold matchSetAt
  rw [if_pos (pfx_left strSet _)]
  rw [hdrop, hdw, htw, List.drop_left name _]
  rw [if_pos (pfx_left name _)]
  have hgoal := sepScan_run (strSet ++ ws ++ name) sep inner t hsep hin
  rw [show (sep ++ inner ++ ')' :: t : Text) = sep ++ (inner ++ ')' :: t) from by
    simp [List.append_assoc]] at hgoal ⊢
  rw [hgoal]

theorem fsm_split {name s pre m inner suf : Text}
    (h : findSetMatch name s = some (pre, m, inner, suf)) :
    s = pre ++ m ++ suf ∧ matchSetAt name (m ++ suf) = some (m, inner, suf) ∧
      ∀ j < pre.length, matchSetAt name (s.drop j) = none := by
  induction s generalizing pre m inner suf with
  | nil => cases h
  | cons c rest ih =>
    simp only [findSetMatch] at h
    cases hma : matchSetAt name (c :: rest) with
    | some v =>
      obtain ⟨m2, i2, r2⟩ := v
      rw [hma] at h
      simp only [Option.some.injEq, Prod.mk.injEq] at h
      obtain ⟨h1, h2, h3, h4⟩ := h
      subst h1
      subst h2
      subst h3
      subst h4
      have hd := (matchSetAt_decomp hma).1
      refine ⟨by simpa using hd, by rw [← hd]; exact hma, ?_⟩
      intro j hj
      simp at hj
    | none =>
      rw [hma] at h
      cases hf : findSetMatch name rest with
      | none => rw [hf] at h; cases h
      | some w =>
        obtain ⟨p2, m2, i2, r2⟩ := w
        rw [hf] at h
        simp only [Option.some.injEq, Prod.mk.injEq] at h
        obtain ⟨h1, h2, h3, h4⟩ := h
        subst h2
        subst h3
        subst h4
        obtain ⟨hs, hat, hnone⟩ := ih hf
        subst h1
        refine ⟨by rw [hs]; simp, hat, ?_⟩
        intro j hj
        cases j with
        | zero => simpa using hma
        | succ j2 =>
          have hdj : (c :: rest).drop (j2 + 1) = rest.drop j2 := rfl
          rw [hdj]
          exact hnone j2 (by simpa using hj)

theorem fsm_none {name s : Text} (h : findSetMatch name s = none) :
    ∀ j, matchSetAt name (s.drop j) = none := by
  induction s with
  | nil =>
    intro j
    rw [List.drop_nil]
    exact matchSetAt_nil name
  | cons c rest ih =>
    intro j
    simp only [findSetMatch] at h
    cases hma : matchSetAt name (c :: rest) with
    | some v =>
      obtain ⟨m2, i2, r2⟩ := v
      rw [hma] at h
      cases h
    | none =>
      rw [hma] at h
      cases hf : findSetMatch name rest with
      | some w =>
        obtain ⟨p2, m2, i2, r2⟩ := w
        rw [hf] at h
        cases h
      | none =>
        cases j with
        | zero => simpa using hma
        | succ j2 => exact ih hf j2

theorem fsm_intro {name : Text} (pre rest : Text) {m inner r : Text}
    (hnone : ∀ j < pre.length, matchSetAt name ((pre ++ rest).drop j) = none)
    (hat : matchSetAt name rest = some (m, inner, r)) :
    findSetMatch name (pre ++ rest) = some (pre, m, inner, r) := by
  induction pre with
  | nil =>
    cases rest with
    | nil => rw [matchSetAt_nil] at hat; cases hat
    | cons c rest2 =>
      show findSetMatch name (c :: rest2) = _
      simp only [findSetMatch, hat]
  | cons c p2 ih =>
    have h0 : matchSetAt name (c :: (p2 ++ rest)) = none := by
      have := hnone 0 (by simp)
      simpa using this
    show findSetMatch name (c :: (p2 ++ rest)) = _
    simp only [findSetMatch, h0]
    rw [ih fun j hj => by
      have := hnone (j + 1) (by simpa using Nat.succ_lt_succ hj)
      simpa using this]

theorem fsm_isSome_of_at {name s : Text} {j : Nat} {v : Text × Text × Text}
    (h : matchSetAt name (s.drop j) = some v) : (findSetMatch name s).isSome := by
  induction s generalizing j with
  | nil =>
    rw [List.drop_nil, matchSetAt_nil] at h
    cases h
  | cons c rest ih =>
    obtain ⟨m2, i2, r2⟩ := v
    cases j with
    | zero =>
      rw [List.drop_zero] at h
      simp only [findSetMatch, h]
      rfl
    | succ j2 =>
      simp only [findSetMatch]
      cases hma : matchSetAt name (c :: rest) with
      | some w =>
        obtain ⟨m3, i3, r3⟩ := w
        rfl
      | none =>
        have hds : (c :: rest).drop (j2 + 1) = rest.drop j2 := rfl
        rw [hds] at h
        have := ih h
        cases hf : findSetMatch name rest with
        | none => rw [hf] at this; cases this
        | some w =>
          obtain ⟨p3, m3, i3, r3⟩ := w
          rfl

end MakelistHelper

namespace MakelistHelper

theorem mem_of_getLast? {l : Text} {a : Char} (h : l.getLast? = some a) : a ∈ l := by
  have hne : l ≠ [] := by
    rintro rfl
    simp at h
  rw [List.getLast?_eq_getLast l hne] at h
  have hmem := List.getLast_mem hne
  rwa [Option.some_injective _ h] at hmem

theorem getLast?_drop_of_ne_nil {l : Text} {k : Nat} (h : l.drop k ≠ []) :
    (l.drop k).getLast? = l.getLast? := by
  conv_rhs => rw [← List.take_append_drop k l]
  rw [List.getLast?_append_of_ne_nil _ h]

theorem afterSep_isSome {pre s : Text} (h : ')' ∈ s) : (afterSep pre s).isSome = true := by
  unfold afterSep
  cases hd : s.dropWhile (fun d => d ≠ ')') with
  | nil =>
    exfalso
    have h2 := List.dropWhile_eq_nil_iff.mp hd ')' h
    simp at h2
  | cons r s5 => rfl

theorem matchSetAt_probe {name u X : Text} (hn : ValidName name) (hu : u ≠ [])
    (hX : ')' ∈ X) :
    (matchSetAt name (u ++ (strSet ++ X))).isSome = probeCond name u := by
  have hassoc : u ++ (strSet ++ X) = (u ++ strSet) ++ X := (List.append_assoc u strSet X).symm
  rw [hassoc]
  have hlen4 : strSet.length ≤ (u ++ strSet).length := by
    rw [List.length_append]
    omega
  unfold matchSetAt probeCond
  by_cases hp1 : strSet <+: (u ++ strSet)
  case neg =>
    rw [if_neg (fun hc => hp1 ((pfx_app_iff X hlen4).mp hc)), if_neg hp1]
    rfl
  rw [if_pos ((pfx_app_iff X hlen4).mpr hp1), if_pos hp1]
  have hQX : ((u ++ strSet) ++ X).drop 4 = ((u ++ strSet).drop 4) ++ X := by
    apply List.drop_append_of_le_length
    rw [← strSet_len]
    exact hlen4
  have hQne : (u ++ strSet).drop 4 ≠ [] := by
    have : ((u ++ strSet).drop 4).length = (u ++ strSet).length - 4 := List.length_drop 4 _
    intro hz
    rw [hz] at this
    rw [List.length_append, strSet_len] at this
    simp at this
    cases u with
    | nil => exact hu rfl
    | cons a b => simp at this
  have hQlast : ((u ++ strSet).drop 4).getLast? = some '(' := by
    rw [getLast?_drop_of_ne_nil hQne, List.getLast?_append_of_ne_nil _ (by decide : strSet ≠ [])]
    rfl
  have hQlpar : '(' ∈ (u ++ strSet).drop 4 := mem_of_getLast? hQlast
  have hstop : ∃ x ∈ (u ++ strSet).drop 4, isWS x = false := ⟨'(', hQlpar, by decide⟩
  have hdwX : (((u ++ strSet).drop 4) ++ X).dropWhile isWS
      = (((u ++ strSet).drop 4).dropWhile isWS) ++ X := dropWhile_app_of_stop X hstop
  have hRne : ((u ++ strSet).drop 4).dropWhile isWS ≠ [] := by
    intro hz
    exact absurd (List.dropWhile_eq_nil_iff.mp hz '(' hQlpar) (by decide)
  have hRlast : (((u ++ strSet).drop 4).dropWhile isWS).getLast? = some '(' := by
    rw [← hQlast]
    conv_rhs => rw [← List.takeWhile_append_dropWhile isWS ((u ++ strSet).drop 4)]
    rw [List.getLast?_append_of_ne_nil _ hRne]
  rw [hQX, hdwX]
  have hnmiff : name <+: ((((u ++ strSet).drop 4).dropWhile isWS) ++ X)
      ↔ (name <+: (((u ++ strSet).drop 4).dropWhile isWS)
          ∧ name.length < (((u ++ strSet).drop 4).dropWhile isWS).length) := by
    constructor
    · intro hc
      by_cases hle : name.length ≤ (((u ++ strSet).drop 4).dropWhile isWS).length
      · have hpR := (pfx_app_iff X hle).mp hc
        refine ⟨hpR, ?_⟩
        rcases Nat.lt_or_ge name.length (((u ++ strSet).drop 4).dropWhile isWS).length
          with hlt | hge
        · exact hlt
        · exfalso
          have heq : name = ((u ++ strSet).drop 4).dropWhile isWS :=
            pfx_eq_of_len hpR (Nat.le_antisymm hle hge)
          exact validName_no_lpar hn (heq ▸ mem_of_getLast? hRlast)
      · exfalso
        have hge : (((u ++ strSet).drop 4).dropWhile isWS).length ≤ name.length :=
          Nat.le_of_not_lt (fun hlt => hle (Nat.le_of_lt hlt))
        have hRn : (((u ++ strSet).drop 4).dropWhile isWS) <+: name :=
          pfx_of_pfx_le (pfx_left _ X) hc hge
        exact validName_no_lpar hn (hRn.sublist.subset (mem_of_getLast? hRlast))
    · intro hc
      exact hc.1.trans (pfx_left _ X)
  by_cases hnm : name <+: (((u ++ strSet).drop 4).dropWhile isWS)
      ∧ name.length < (((u ++ strSet).drop 4).dropWhile isWS).length
  case neg =>
    rw [if_neg (fun hc => hnm (hnmiff.mp hc)), if_neg hnm]
    rfl
  rw [if_pos (hnmiff.mpr hnm), if_pos hnm]
  have hdropX : ((((u ++ strSet).drop 4).dropWhile isWS) ++ X).drop name.length
      = ((((u ++ strSet).drop 4).dropWhile isWS).drop name.length) ++ X :=
    List.drop_append_of_le_length (Nat.le_of_lt hnm.2)
  rw [hdropX]
  have hR2ne : (((u ++ strSet).drop 4).dropWhile isWS).drop name.length ≠ [] := by
    intro hz
    have := List.length_drop name.length (((u ++ strSet).drop 4).dropWhile isWS)
    rw [hz] at this
    simp at this
    omega
  have hR2last : ((((u ++ strSet).drop 4).dropWhile isWS).drop name.length).getLast?
      = some '(' := by
    rw [getLast?_drop_of_ne_nil hR2ne]
    exact hRlast
  cases hR2 : (((u ++ strSet).drop 4).dropWhile isWS).drop name.length with
  | nil => exact absurd hR2 hR2ne
  | cons c rest2 =>
    rw [List.cons_append]
    show (sepScan _ (c :: (rest2 ++ X))).isSome = _
    simp only [sepScan]
    by_cases hc1 : c = ' ' ∨ c = '\t'
    · rw [if_pos hc1, if_pos hc1]
      exact afterSep_isSome (List.mem_append_right rest2 hX)
    · rw [if_neg hc1, if_neg hc1]
      by_cases hc2 : c = '\r'
      · rw [if_pos hc2, if_pos hc2]
        cases rest2 with
        | nil =>
          exfalso
          rw [hR2] at hR2last
          simp at hR2last
          subst hc2
          exact absurd hR2last (by decide)
        | cons d rest3 =>
          simp only [List.cons_append, crlfScan]
          by_cases hd : d = '\n'
          · rw [if_pos hd]
            rw [afterSep_isSome (List.mem_append_right rest3 hX)]
            simp [hd]
          · rw [if_neg hd]
            simp [hd]
      · rw [if_neg hc2, if_neg hc2]
        by_cases hc3 : c = '\n'
        · rw [if_pos hc3]
          rw [afterSep_isSome (List.mem_append_right rest2 hX)]
          simp [hc3]
        · rw [if_neg hc3]
          simp [hc3]

theorem matchSetAt_none_transfer {name u A B : Text} (hn : ValidName name) (hu : u ≠ [])
    (hA : ')' ∈ A) (hB : ')' ∈ B)
    (h : matchSetAt name (u ++ (strSet ++ A)) = none) :
    matchSetAt name (u ++ (strSet ++ B)) = none := by
  have h1 := matchSetAt_probe hn hu hA
  have h2 := matchSetAt_probe hn hu hB
  rw [h] at h1
  cases hm : matchSetAt name (u ++ (strSet ++ B)) with
  | none => rfl
  | some v =>
    exfalso
    rw [hm] at h2
    simp at h2
    rw [h2] at h1
    simp at h1

end MakelistHelper

namespace MakelistHelper

theorem str_nl_sp : str "\n    " = '\n' :: str "    " := rfl

theorem str_nl_rp : str "\n)" = '\n' :: [')'] := rfl

theorem str_nl : str "\n" = ['\n'] := rfl

theorem intercalate_single (sep a : Text) : List.intercalate sep [a] = a := by
  simp [List.intercalate]

theorem intercalate_app_single (sep : Text) (es : List Text) (a : Text) (hne : es ≠ []) :
    List.intercalate sep (es ++ [a]) = List.intercalate sep es ++ sep ++ a := by
  induction es with
  | nil => cases hne rfl
  | cons e t ih =>
    cases t with
    | nil =>
      rw [intercalate_single]
      rw [List.singleton_append, intercalate_cons₂ sep e [a] (by simp), intercalate_single]
    | cons b t2 =>
      rw [List.cons_append, intercalate_cons₂ sep e ((b :: t2) ++ [a]) (by simp),
        intercalate_cons₂ sep e (b :: t2) (by simp), ih (by simp)]
      simp [List.append_assoc]

theorem sfi_intro (pat pre suf : Text) (hp : pat ≠ [])
    (hnone : ∀ j < pre.length, ¬ pat <+: ((pre ++ (pat ++ suf)).drop j)) :
    splitFirstOcc pat (pre ++ (pat ++ suf)) = some (pre, suf) := by
  induction pre with
  | nil =>
    rw [List.nil_append]
    cases pat with
    | nil => cases hp rfl
    | cons a pt =>
      show splitFirstOcc (a :: pt) ((a :: pt) ++ suf) = _
      rw [show ((a :: pt) ++ suf : Text) = a :: (pt ++ suf) from rfl]
      simp only [splitFirstOcc]
      rw [if_pos (show (a :: pt : Text) <+: a :: (pt ++ suf) from pfx_left _ _)]
      rw [show ((a :: (pt ++ suf) : Text)).drop (a :: pt).length = (pt ++ suf).drop pt.length
        from rfl, List.drop_left]
  | cons c p2 ih =>
    have h0 : ¬ pat <+: (c :: (p2 ++ (pat ++ suf))) := by
      have := hnone 0 (by simp)
      simpa using this
    show splitFirstOcc pat (c :: (p2 ++ (pat ++ suf))) = _
    simp only [splitFirstOcc]
    rw [if_neg h0]
    rw [ih (fun j hj => by
      have h1 := hnone (j + 1) (by simpa using Nat.succ_lt_succ hj)
      simpa using h1)]

theorem drop_ne_nil_of_lt {l : Text} {j : Nat} (hj : j < l.length) : l.drop j ≠ [] := by
  intro hz
  have := List.length_drop j l
  rw [hz] at this
  simp at this
  omega

theorem dollarSpecial_false {d : Char} (h : dollarSpecial d = false) :
    d ≠ '$' ∧ d ≠ '&' ∧ d ≠ '\x60' ∧ d ≠ '\x27' := by
  refine ⟨fun h1 => ?a, fun h2 => ?b, fun h3 => ?e, fun h4 => ?f⟩
  · rw [h1] at h
    exact absurd h (by decide)
  · rw [h2] at h
    exact absurd h (by decide)
  · rw [h3] at h
    exact absurd h (by decide)
  · rw [h4] at h
    exact absurd h (by decide)

theorem tame_nil : DollarTame [] := List.chain'_nil

theorem tame_tail {c : Char} {r : Text} (h : DollarTame (c :: r)) : DollarTame r :=
  (List.chain'_cons'.mp h).2

theorem gs_cons_nd (m b a : Text) {c : Char} (rest : Text) (hc : c ≠ '$') :
    getSubstitution m b a (c :: rest) = c :: getSubstitution m b a rest := by
  cases rest with
  | nil =>
    simp only [getSubstitution]
    rw [if_neg hc]
  | cons d r2 =>
    simp only [getSubstitution]
    rw [if_neg hc]

theorem gs_eq_self_of_tame {r : Text} (m b a : Text) (h : DollarTame r) :
    getSubstitution m b a r = r := by
  induction r with
  | nil => rfl
  | cons c rest ih =>
    by_cases hc : c = '$'
    · subst hc
      cases rest with
      | nil => rfl
      | cons d r2 =>
        have hR : dollarSpecial d = false := (List.chain'_cons.mp h).1 rfl
        obtain ⟨hd1, hd2, hd3, hd4⟩ := dollarSpecial_false hR
        simp only [getSubstitution]
        rw [if_pos trivial]
        show (if d = '$' then '$' :: getSubstitution m b a r2
            else if d = '&' then m ++ getSubstitution m b a r2
            else if d = '\x60' then b ++ getSubstitution m b a r2
            else if d = '\x27' then a ++ getSubstitution m b a r2
            else '$' :: getSubstitution m b a (d :: r2)) = '$' :: d :: r2
        rw [if_neg hd1, if_neg hd2, if_neg hd3, if_neg hd4, ih (tame_tail h)]
    · rw [gs_cons_nd m b a rest hc, ih (tame_tail h)]

theorem gs_app_nd {x : Text} (m b a y : Text) (hx : '$' ∉ x) :
    getSubstitution m b a (x ++ y) = x ++ getSubstitution m b a y := by
  induction x with
  | nil => rfl
  | cons c rest ih =>
    have hc : c ≠ '$' := fun hrfl => hx (List.mem_cons.mpr (Or.inl hrfl.symm))
    rw [List.cons_append, gs_cons_nd m b a _ hc,
      ih (fun hm => hx (List.mem_cons_of_mem c hm)), List.cons_append]

theorem gs_rpar_aux (m b a : Text) :
    ∀ (n : Nat) (r : Text), r.length ≤ n → ')' ∈ r → ')' ∈ getSubstitution m b a r := by
  intro n
  induction n with
  | zero =>
    intro r hle hmem
    cases r with
    | nil => cases hmem
    | cons c rest => simp at hle
  | succ k ih =>
    intro r hle hmem
    cases r with
    | nil => cases hmem
    | cons c rest =>
      by_cases hc : c = '$'
      · subst hc
        cases rest with
        | nil => exact absurd hmem (by decide)
        | cons d r2 =>
          have hlen : r2.length ≤ k := by
            simp only [List.length_cons] at hle
            omega
          have hmem2 : ')' ∈ d :: r2 := by
            rcases List.mem_cons.mp hmem with h | h
            · exact absurd h (by decide)
            · exact h
          have hr2 : d ≠ ')' → ')' ∈ r2 := by
            intro hd
            rcases List.mem_cons.mp hmem2 with h | h
            · exact absurd h.symm hd
            · exact h
          simp only [getSubstitution]
          rw [if_pos trivial]
          show ')' ∈ (if d = '$' then '$' :: getSubstitution m b a r2
            else if d = '&' then m ++ getSubstitution m b a r2
            else if d = '\x60' then b ++ getSubstitution m b a r2
            else if d = '\x27' then a ++ getSubstitution m b a r2
            else '$' :: getSubstitution m b a (d :: r2))
          by_cases hd1 : d = '$'
          · rw [if_pos hd1]
            exact List.mem_cons_of_mem _ (ih r2 hlen (hr2 (by rw [hd1]; decide)))
          · rw [if_neg hd1]
            by_cases hd2 : d = '&'
            · rw [if_pos hd2]
              exact List.mem_append_right _ (ih r2 hlen (hr2 (by rw [hd2]; decide)))
            · rw [if_neg hd2]
              by_cases hd3 : d = '\x60'
              · rw [if_pos hd3]
                exact List.mem_append_right _ (ih r2 hlen (hr2 (by rw [hd3]; decide)))
              · rw [if_neg hd3]
                by_cases hd4 : d = '\x27'
                · rw [if_pos hd4]
                  exact List.mem_append_right _ (ih r2 hlen (hr2 (by rw [hd4]; decide)))
                · rw [if_neg hd4]
                  exact List.mem_cons_of_mem _ (ih (d :: r2)
                    (by simp only [List.length_cons] at hle ⊢; omega) hmem2)
      · rw [gs_cons_nd m b a rest hc]
        rcases List.mem_cons.mp hmem with h | h
        · exact List.mem_cons.mpr (Or.inl h)
        · exact List.mem_cons_of_mem _ (ih rest
            (by simp only [List.length_cons] at hle; omega) h)

theorem gs_rpar {m b a r : Text} (h : ')' ∈ r) : ')' ∈ getSubstitution m b a r :=
  gs_rpar_aux m b a r.length r (Nat.le_refl _) h

theorem tame_of_no_dollar {r : Text} (h : '$' ∉ r) : DollarTame r := by
  induction r with
  | nil => exact List.chain'_nil
  | cons c rest ih =>
    refine List.chain'_cons'.mpr ⟨fun y hy hc => ?h1, ?h2⟩
    · exact absurd (List.mem_cons.mpr (Or.inl hc.symm)) h
    · exact ih (fun hm => h (List.mem_cons_of_mem c hm))

theorem tame_app_r {x y : Text} (hx : DollarTame x) (hy : DollarTame y)
    (hh : ∀ c, y.head? = some c → dollarSpecial c = false) : DollarTame (x ++ y) :=
  List.chain'_append.mpr ⟨hx, hy, fun u _ v hv _ => hh v (Option.mem_def.mp hv)⟩

theorem tame_app_l {x y : Text} (hx : DollarTame x) (hy : DollarTame y)
    (hl : ∀ c, x.getLast? = some c → c ≠ '$') : DollarTame (x ++ y) :=
  List.chain'_append.mpr
    ⟨hx, hy, fun u hu v _ hd => absurd hd (hl u (Option.mem_def.mp hu))⟩

theorem tame_quote {rel : Text} (h : DollarTame rel) : DollarTame (quote rel) := by
  show DollarTame ('"' :: (rel ++ ['"']))
  refine List.chain'_cons'.mpr ⟨fun y hy hq => absurd hq (by decide), ?ht⟩
  refine tame_app_r h (tame_of_no_dollar (by decide)) (fun c hc => ?hh)
  simp only [List.head?_cons, Option.some.injEq] at hc
  rw [← hc]
  decide

theorem tame_intercalate {es : List Text} (h : ∀ e ∈ es, DollarTame e) :
    DollarTame (List.intercalate (str "\n    ") es) := by
  induction es with
  | nil => exact tame_nil
  | cons e t ih =>
    cases t with
    | nil =>
      rw [intercalate_single]
      exact h e (List.mem_cons_self e [])
    | cons b t2 =>
      rw [intercalate_cons₂ _ e (b :: t2) (by simp)]
      apply tame_app_l
      · refine tame_app_r (h e (List.mem_cons_self e (b :: t2)))
          (tame_of_no_dollar (by decide)) (fun c hc => ?hh)
        rw [show (str "\n    ").head? = some '\n' from rfl] at hc
        simp only [Option.some.injEq] at hc
        rw [← hc]
        decide
      · exact ih (fun e2 he2 => h e2 (List.mem_cons_of_mem _ he2))
      · intro c hc
        rw [List.getLast?_append_of_ne_nil _ (by decide : str "\n    " ≠ []),
          show (str "\n    ").getLast? = some ' ' from by decide] at hc
        simp only [Option.some.injEq] at hc
        rw [← hc]
        decide

theorem tame_ib {es : List Text} (h : ∀ e ∈ es, DollarTame e) :
    DollarTame (str "    " ++ List.intercalate (str "\n    ") es ++ str "\n") := by
  apply tame_app_r
  · refine tame_app_l (tame_of_no_dollar (by decide)) (tame_intercalate h)
      (fun c hc => ?hl)
    rw [show (str "    ").getLast? = some ' ' from by decide] at hc
    simp only [Option.some.injEq] at hc
    rw [← hc]
    decide
  · exact tame_of_no_dollar (by decide)
  · intro c hc
    rw [show (str "\n").head? = some '\n' from rfl] at hc
    simp only [Option.some.injEq] at hc
    rw [← hc]
    decide

theorem validName_no_dollar {name : Text} (h : ValidName name) : '$' ∉ name := by
  intro hmem
  exact absurd (h.2 '$' hmem) (by decide)

theorem tame_canonical {name ib : Text} (hn : ValidName name) (hib : DollarTame ib) :
    DollarTame (strSet ++ name ++ ['\n'] ++ ib ++ [')']) := by
  refine tame_app_r ?hx (tame_of_no_dollar (by decide)) (fun c hc => ?hh)
  case hh =>
    simp only [List.head?_cons, Option.some.injEq] at hc
    rw [← hc]
    decide
  case hx =>
    refine tame_app_l (tame_of_no_dollar fun hm => ?nd) hib (fun c hc => ?hl)
    case nd =>
      rcases List.mem_append.mp hm with hm1 | hm2
      · rcases List.mem_append.mp hm1 with hs | hname
        · exact absurd hs (by decide)
        · exact absurd hname (validName_no_dollar hn)
      · exact absurd hm2 (by decide)
    case hl =>
      rw [List.getLast?_append_of_ne_nil _ (by decide : (['\n'] : Text) ≠ [])] at hc
      simp only [List.getLast?_singleton, Option.some.injEq] at hc
      rw [← hc]
      decide

theorem no_dollar_head {name : Text} (hn : ValidName name) :
    '$' ∉ strSet ++ name ++ ['\n'] := by
  intro hm
  rcases List.mem_append.mp hm with hm1 | hm2
  · rcases List.mem_append.mp hm1 with hs | hname
    · exact absurd hs (by decide)
    · exact absurd hname (validName_no_dollar hn)
  · exact absurd hm2 (by decide)

theorem matchSetAt_isSome_head {name T : Text} (hn : ValidName name) (hrp : ')' ∈ T) :
    (matchSetAt name (strSet ++ (name ++ '\n' :: T))).isSome = true := by
  obtain ⟨n0, nr, hname, hn0, _⟩ := validName_head hn
  have hdrop : (strSet ++ (name ++ '\n' :: T)).drop 4 = name ++ '\n' :: T := by
    have := List.drop_left strSet (name ++ '\n' :: T)
    rwa [strSet_len] at this
  have htw : (name ++ '\n' :: T).takeWhile isWS = [] := by
    rw [hname, List.cons_append]
    simp [List.takeWhile_cons, hn0]
  have hdw : (name ++ '\n' :: T).dropWhile isWS = name ++ '\n' :: T := by
    conv_lhs => rw [hname]
    rw [List.cons_append, List.dropWhile_cons, hn0]
    rw [if_neg (by simp)]
    rw [hname, List.cons_append]
  unfold matchSetAt
  rw [if_pos (pfx_left strSet _)]
  rw [hdrop, hdw, htw]
  rw [if_pos (pfx_left name _)]
  rw [List.drop_left name _]
  rw [sepScan_lf]
  exact afterSep_isSome hrp

theorem replace_block {name content pre m inner suf : Text} (nb : Text) (hn : ValidName name)
    (hfsm : findSetMatch name content = some (pre, m, inner, suf)) :
    replaceFirst content m nb = pre ++ getSubstitution m pre suf nb ++ suf := by
  obtain ⟨hcontent, hat, hnone⟩ := fsm_split hfsm
  obtain ⟨-, hin, ws, sep, hm, hws, hsep⟩ := matchSetAt_decomp hat
  have hassoc : (pre ++ m ++ suf : Text) = pre ++ (m ++ suf) := by
    simp [List.append_assoc]
  have hsfi : splitFirstOcc m content = some (pre, suf) := by
    rw [hcontent, hassoc]
    apply sfi_intro
    · rw [hm]
      simp [strSet]
    · intro j hj hpfx
      rw [List.drop_append_of_le_length (Nat.le_of_lt hj)] at hpfx
      obtain ⟨t, ht⟩ := hpfx
      have hrun : matchSetAt name (m ++ t) = some (m, inner, t) := by
        rw [hm]
        exact matchSetAt_run ws sep inner t hn hws hsep hin
      have h0 := hnone j hj
      rw [hcontent, hassoc, List.drop_append_of_le_length (Nat.le_of_lt hj)] at h0
      rw [← ht, hrun] at h0
      cases h0
  unfold replaceFirst
  rw [hsfi]

theorem replace_block_tame {name content pre m inner suf : Text} (nb : Text)
    (hn : ValidName name)
    (hfsm : findSetMatch name content = some (pre, m, inner, suf))
    (ht : DollarTame nb) :
    replaceFirst content m nb = pre ++ nb ++ suf := by
  rw [replace_block nb hn hfsm, gs_eq_self_of_tame m pre suf ht]

theorem rebuilt_relocate {name content pre m inner suf : Text} (ib : Text)
    (hn : ValidName name)
    (hfsm : findSetMatch name content = some (pre, m, inner, suf))
    (hib : ')' ∉ ib) :
    findSetMatch name (pre ++ (strSet ++ name ++ ['\n'] ++ ib ++ [')']) ++ suf)
      = some (pre, strSet ++ name ++ ['\n'] ++ ib ++ [')'], ib, suf) := by
  rw [List.append_assoc]
  obtain ⟨hcontent, hat, hnone⟩ := fsm_split hfsm
  obtain ⟨-, hin, ws, sep, hm, hws, hsep⟩ := matchSetAt_decomp hat
  have hat2 : matchSetAt name ((strSet ++ name ++ ['\n'] ++ ib ++ [')']) ++ suf)
      = some (strSet ++ name ++ ['\n'] ++ ib ++ [')'], ib, suf) := by
    have h := matchSetAt_run ([] : Text) ['\n'] ib suf hn (by simp)
      (Or.inr (Or.inr (Or.inr rfl))) hib
    simpa using h
  apply fsm_intro
  · intro j hj
    rw [List.drop_append_of_le_length (Nat.le_of_lt hj)]
    have hud : pre.drop j ≠ [] := drop_ne_nil_of_lt hj
    have hold : matchSetAt name (pre.drop j ++ (m ++ suf)) = none := by
      have h0 := hnone j hj
      rw [hcontent, show (pre ++ m ++ suf : Text) = pre ++ (m ++ suf) from by
        simp [List.append_assoc]] at h0
      rwa [List.drop_append_of_le_length (Nat.le_of_lt hj)] at h0
    have hold2 : matchSetAt name (pre.drop j
        ++ (strSet ++ (ws ++ (name ++ (sep ++ (inner ++ ')' :: suf)))))) = none := by
      rw [hm] at hold
      rw [show ((strSet ++ ws ++ name ++ sep ++ inner ++ [')'] : Text) ++ suf)
          = strSet ++ (ws ++ (name ++ (sep ++ (inner ++ ')' :: suf)))) from by
        simp [List.append_assoc]] at hold
      exact hold
    rw [show ((strSet ++ name ++ ['\n'] ++ ib ++ [')'] : Text) ++ suf)
        = strSet ++ (name ++ ('\n' :: (ib ++ ')' :: suf))) from by
      simp [List.append_assoc]]
    exact matchSetAt_none_transfer hn hud (by simp) (by simp) hold2
  · exact hat2

end MakelistHelper

namespace MakelistHelper

theorem isEmpty_false_of_ne {l : Text} (h : l ≠ []) : l.isEmpty = false := by
  cases l with
  | nil => cases h rfl
  | cons a t => rfl

theorem isEmpty_false_of_ne' {l : List Text} (h : l ≠ []) : l.isEmpty = false := by
  cases l with
  | nil => cases h rfl
  | cons a t => rfl

theorem cleaned_ne {inner : Text} (hne : normalizeBlock inner ≠ []) :
    (trim (normalizeBlock inner).flatten).isEmpty = false := by
  cases hes : normalizeBlock inner with
  | nil => cases hne hes
  | cons e es2 =>
    have hmem : e ∈ normalizeBlock inner := by
      rw [hes]
      exact List.mem_cons_self _ _
    obtain ⟨htr, hene, -⟩ := normalizeBlock_mem hmem
    obtain ⟨h0, t0, he⟩ : ∃ h0 t0, e = h0 :: t0 := by
      cases e with
      | nil => exact absurd rfl hene
      | cons a b => exact ⟨a, b, rfl⟩
    have hh : isWS h0 = false := by
      apply trim_head_false (l := e)
      rw [htr, he]
      rfl
    have hmemc : h0 ∈ (e :: es2).flatten := by
      simp [he]
    exact isEmpty_false_of_ne (trim_ne_nil_of hmemc hh)

theorem cleaned_nil : (trim ([] : List Text).flatten).isEmpty = true := rfl

theorem addToCMake_nomatch {name qpath content : Text}
    (h : findSetMatch name content = none) : addToCMake name qpath content = none := by
  unfold addToCMake
  rw [h]

theorem removeFromCMake_nomatch {name qpath content : Text}
    (h : findSetMatch name content = none) : removeFromCMake name qpath content = none := by
  unfold removeFromCMake
  rw [h]

theorem addToCMake_noop {name qpath content pre m inner suf : Text}
    (hfsm : findSetMatch name content = some (pre, m, inner, suf))
    (hmem : qpath ∈ normalizeBlock inner) : addToCMake name qpath content = none := by
  unfold addToCMake
  rw [hfsm]
  show (if qpath ∈ normalizeBlock inner then none else _) = none
  rw [if_pos hmem]

theorem removeFromCMake_noop {name qpath content pre m inner suf : Text}
    (hfsm : findSetMatch name content = some (pre, m, inner, suf))
    (hmem : qpath ∉ normalizeBlock inner) : removeFromCMake name qpath content = none := by
  unfold removeFromCMake
  rw [hfsm]
  show (if qpath ∈ normalizeBlock inner then _ else none) = none
  rw [if_neg hmem]

theorem addToCMake_run_empty {name qpath content pre m inner suf : Text}
    (hfsm : findSetMatch name content = some (pre, m, inner, suf))
    (hnil : normalizeBlock inner = []) :
    addToCMake name qpath content =
      some (replaceFirst content m
        (strSet ++ name ++ str "\n    " ++ qpath ++ str "\n)")) := by
  have hmem : qpath ∉ normalizeBlock inner := by
    rw [hnil]
    simp
  unfold addToCMake
  rw [hfsm]
  show (if qpath ∈ normalizeBlock inner then none
    else some (replaceFirst content m
      (if (trim (normalizeBlock inner).flatten).isEmpty = true
        then strSet ++ name ++ str "\n    " ++ qpath ++ str "\n)"
        else strSet ++ name ++ str "\n    "
          ++ List.intercalate (str "\n    ") (normalizeBlock inner)
          ++ str "\n    " ++ qpath ++ str "\n)"))) = _
  rw [if_neg hmem, hnil]
  rw [if_pos (by decide)]

theorem addToCMake_run_app {name qpath content pre m inner suf : Text}
    (hfsm : findSetMatch name content = some (pre, m, inner, suf))
    (hmem : qpath ∉ normalizeBlock inner) (hne : normalizeBlock inner ≠ []) :
    addToCMake name qpath content =
      some (replaceFirst content m
        (strSet ++ name ++ str "\n    "
          ++ List.intercalate (str "\n    ") (normalizeBlock inner)
          ++ str "\n    " ++ qpath ++ str "\n)")) := by
  unfold addToCMake
  rw [hfsm]
  show (if qpath ∈ normalizeBlock inner then none
    else some (replaceFirst content m
      (if (trim (normalizeBlock inner).flatten).isEmpty = true
        then strSet ++ name ++ str "\n    " ++ qpath ++ str "\n)"
        else strSet ++ name ++ str "\n    "
          ++ List.intercalate (str "\n    ") (normalizeBlock inner)
          ++ str "\n    " ++ qpath ++ str "\n)"))) = _
  rw [if_neg hmem]
  rw [if_neg (by simp [cleaned_ne hne])]

theorem removeFromCMake_run {name qpath content pre m inner suf : Text}
    (hfsm : findSetMatch name content = some (pre, m, inner, suf))
    (hmem : qpath ∈ normalizeBlock inner) :
    removeFromCMake name qpath content =
      some (replaceFirst content m
        (if ((normalizeBlock inner).filter (fun l => l ≠ qpath)).isEmpty = true
          then strSet ++ name ++ str "\n)"
          else strSet ++ name ++ str "\n    "
            ++ List.intercalate (str "\n    ")
              ((normalizeBlock inner).filter (fun l => l ≠ qpath))
            ++ str "\n)")) := by
  unfold removeFromCMake
  rw [hfsm]
  show (if qpath ∈ normalizeBlock inner
    then some (replaceFirst content m
      (if ((normalizeBlock inner).filter (fun l => l ≠ qpath)).isEmpty = true
        then strSet ++ name ++ str "\n)"
        else strSet ++ name ++ str "\n    "
          ++ List.intercalate (str "\n    ")
            ((normalizeBlock inner).filter (fun l => l ≠ qpath))
          ++ str "\n)"))
    else none) = _
  rw [if_pos hmem]

end MakelistHelper

namespace MakelistHelper

theorem shape_add_empty (name qpath : Text) :
    strSet ++ name ++ str "\n    " ++ qpath ++ str "\n)"
      = strSet ++ name ++ ['\n']
        ++ (str "    " ++ List.intercalate (str "\n    ") [qpath] ++ str "\n") ++ [')'] := by
  rw [intercalate_single, str_nl_sp, str_nl_rp, str_nl]
  simp [List.append_assoc]

theorem shape_add_app (name qpath : Text) (es : List Text) (hne : es ≠ []) :
    strSet ++ name ++ str "\n    " ++ List.intercalate (str "\n    ") es
        ++ str "\n    " ++ qpath ++ str "\n)"
      = strSet ++ name ++ ['\n']
        ++ (str "    " ++ List.intercalate (str "\n    ") (es ++ [qpath]) ++ str "\n") ++ [')'] := by
  rw [intercalate_app_single _ es qpath hne, str_nl_sp, str_nl_rp, str_nl]
  simp [List.append_assoc]

theorem shape_shell (name : Text) :
    strSet ++ name ++ str "\n)"
      = strSet ++ name ++ ['\n'] ++ ([] : Text) ++ [')'] := by
  rw [str_nl_rp]
  simp

theorem shape_list (name : Text) (es : List Text) :
    strSet ++ name ++ str "\n    " ++ List.intercalate (str "\n    ") es ++ str "\n)"
      = strSet ++ name ++ ['\n']
        ++ (str "    " ++ List.intercalate (str "\n    ") es ++ str "\n") ++ [')'] := by
  rw [str_nl_sp, str_nl_rp, str_nl]
  simp [List.append_assoc]

theorem mem_intercalate_cases {sep : Text} {c : Char} :
    ∀ {es : List Text}, c ∈ List.intercalate sep es → c ∈ sep ∨ ∃ e ∈ es, c ∈ e := by
  intro es
  induction es with
  | nil =>
    intro h
    simp [List.intercalate] at h
  | cons a t ih =>
    intro h
    cases t with
    | nil =>
      rw [intercalate_single] at h
      exact Or.inr ⟨a, by simp, h⟩
    | cons b t2 =>
      rw [intercalate_cons₂ sep a (b :: t2) (by simp)] at h
      rcases List.mem_append.mp h with h1 | h2
      · rcases List.mem_append.mp h1 with h3 | h4
        · exact Or.inr ⟨a, by simp, h3⟩
        · exact Or.inl h4
      · rcases ih h2 with h5 | ⟨e, he, hc⟩
        · exact Or.inl h5
        · exact Or.inr ⟨e, List.mem_cons_of_mem a he, hc⟩

theorem ib_no_rpar {es : List Text} (h : ∀ e ∈ es, ')' ∉ e) :
    ')' ∉ str "    " ++ List.intercalate (str "\n    ") es ++ str "\n" := by
  intro hc
  rcases List.mem_append.mp hc with h1 | h2
  · rcases List.mem_append.mp h1 with h3 | h4
    · revert h3
      decide
    · rcases mem_intercalate_cases h4 with h5 | ⟨e, he, hce⟩
      · revert h5
        decide
      · exact h e he hce
  · revert h2
    decide

theorem entries_good {name content pre m inner suf : Text}
    (hfsm : findSetMatch name content = some (pre, m, inner, suf)) :
    ∀ e ∈ normalizeBlock inner, trim e = e ∧ e ≠ [] ∧ '\n' ∉ e ∧ ')' ∉ e := by
  obtain ⟨-, hat, -⟩ := fsm_split hfsm
  obtain ⟨-, hin, -⟩ := matchSetAt_decomp hat
  intro e he
  obtain ⟨h1, h2, h3⟩ := normalizeBlock_mem he
  exact ⟨h1, h2, fun hc => (h3 '\n' hc).2 rfl, fun hc => hin ((h3 ')' hc).1)⟩

theorem quote_ne_nil (rel : Text) : quote rel ≠ [] := by
  simp [quote]

theorem quote_no_nl {rel : Text} (hnl : '\n' ∉ rel) : '\n' ∉ quote rel := by
  intro hc
  simp only [quote, List.mem_cons, List.mem_append] at hc
  rcases hc with hc | hc | hc
  · cases hc
  · exact hnl hc
  · simp at hc

theorem quote_no_rpar {rel : Text} (hrp : ')' ∉ rel) : ')' ∉ quote rel := by
  intro hc
  simp only [quote, List.mem_cons, List.mem_append] at hc
  rcases hc with hc | hc | hc
  · cases hc
  · exact hrp hc
  · simp at hc

theorem extractEntries_eq {name content pre m inner suf : Text}
    (h : findSetMatch name content = some (pre, m, inner, suf)) :
    extractEntries name content = some (normalizeBlock inner) := by
  unfold extractEntries
  rw [h]
  rfl

theorem extractEntries_none {name content : Text} (h : findSetMatch name content = none) :
    extractEntries name content = none := by
  unfold extractEntries
  rw [h]
  rfl

theorem add_then_state {name rel content pre m inner suf : Text}
    (hn : ValidName name) (hrp : ')' ∉ rel) (hnl : '\n' ∉ rel)
    (hfsm : findSetMatch name content = some (pre, m, inner, suf))
    (hmem : quote rel ∉ normalizeBlock inner)
    (hte : ∀ e ∈ normalizeBlock inner, DollarTame e) (htr : DollarTame rel) :
    addToCMake name (quote rel) content
        = some (pre ++ (strSet ++ name ++ ['\n']
            ++ (str "    "
              ++ List.intercalate (str "\n    ") (normalizeBlock inner ++ [quote rel])
              ++ str "\n") ++ [')']) ++ suf) ∧
      findSetMatch name (pre ++ (strSet ++ name ++ ['\n']
            ++ (str "    "
              ++ List.intercalate (str "\n    ") (normalizeBlock inner ++ [quote rel])
              ++ str "\n") ++ [')']) ++ suf)
        = some (pre,
            strSet ++ name ++ ['\n']
              ++ (str "    "
                ++ List.intercalate (str "\n    ") (normalizeBlock inner ++ [quote rel])
                ++ str "\n") ++ [')'],
            str "    "
              ++ List.intercalate (str "\n    ") (normalizeBlock inner ++ [quote rel])
              ++ str "\n",
            suf) ∧
      normalizeBlock (str "    "
          ++ List.intercalate (str "\n    ") (normalizeBlock inner ++ [quote rel])
          ++ str "\n")
        = normalizeBlock inner ++ [quote rel] := by
  have hgood := entries_good hfsm
  have hibgood : ∀ e ∈ normalizeBlock inner ++ [quote rel], trim e = e ∧ e ≠ [] ∧ '\n' ∉ e := by
    intro e he
    rcases List.mem_append.mp he with he1 | he1
    · obtain ⟨g1, g2, g3, -⟩ := hgood e he1
      exact ⟨g1, g2, g3⟩
    · simp at he1
      subst he1
      exact ⟨trim_quote rel, quote_ne_nil rel, quote_no_nl hnl⟩
  have hibrp : ')' ∉ str "    "
      ++ List.intercalate (str "\n    ") (normalizeBlock inner ++ [quote rel]) ++ str "\n" := by
    apply ib_no_rpar
    intro e he
    rcases List.mem_append.mp he with he1 | he1
    · exact (hgood e he1).2.2.2
    · simp at he1
      subst he1
      exact quote_no_rpar hrp
  have hreb := normalizeBlock_rebuilt (normalizeBlock inner ++ [quote rel])
    (by simp) hibgood
  have htq : DollarTame (quote rel) := tame_quote htr
  have htone : ∀ e ∈ [quote rel], DollarTame e := by
    intro e he
    simp at he
    subst he
    exact htq
  have hents : ∀ e ∈ normalizeBlock inner ++ [quote rel], DollarTame e := by
    intro e he
    rcases List.mem_append.mp he with he1 | he1
    · exact hte e he1
    · simp at he1
      subst he1
      exact htq
  have hadd : addToCMake name (quote rel) content
      = some (pre ++ (strSet ++ name ++ ['\n']
          ++ (str "    "
            ++ List.intercalate (str "\n    ") (normalizeBlock inner ++ [quote rel])
            ++ str "\n") ++ [')']) ++ suf) := by
    cases hes : normalizeBlock inner with
    | nil =>
      rw [addToCMake_run_empty hfsm hes]
      rw [shape_add_empty]
      rw [replace_block_tame _ hn hfsm (tame_canonical hn (tame_ib htone))]
      simp
    | cons e es2 =>
      rw [addToCMake_run_app hfsm hmem (by rw [hes]; simp)]
      rw [shape_add_app name (quote rel) (normalizeBlock inner) (by rw [hes]; simp)]
      rw [replace_block_tame _ hn hfsm (tame_canonical hn (tame_ib hents))]
      rw [hes]
  refine ⟨hadd, ?_, hreb⟩
  exact rebuilt_relocate _ hn hfsm hibrp

theorem remove_then_state {name qpath content pre m inner suf : Text}
    (hn : ValidName name)
    (hfsm : findSetMatch name content = some (pre, m, inner, suf))
    (hmem : qpath ∈ normalizeBlock inner)
    (hte : ∀ e ∈ normalizeBlock inner, DollarTame e) :
    ∃ c1 ib, removeFromCMake name qpath content = some c1 ∧
      c1 = pre ++ (strSet ++ name ++ ['\n'] ++ ib ++ [')']) ++ suf ∧
      findSetMatch name c1 = some (pre, strSet ++ name ++ ['\n'] ++ ib ++ [')'], ib, suf) ∧
      normalizeBlock ib = (normalizeBlock inner).filter (fun l => l ≠ qpath) := by
  have hgood := entries_good hfsm
  have hfgood : ∀ e ∈ (normalizeBlock inner).filter (fun l => l ≠ qpath),
      trim e = e ∧ e ≠ [] ∧ '\n' ∉ e ∧ ')' ∉ e :=
    fun e he => hgood e (List.mem_of_mem_filter he)
  rw [removeFromCMake_run hfsm hmem]
  by_cases hup : (normalizeBlock inner).filter (fun l => l ≠ qpath) = []
  · refine ⟨pre ++ (strSet ++ name ++ ['\n'] ++ ([] : Text) ++ [')']) ++ suf, [],
      ?_, rfl, ?_, ?_⟩
    · rw [if_pos (by rw [hup]; rfl), shape_shell,
        replace_block_tame _ hn hfsm (tame_canonical hn tame_nil)]
    · exact rebuilt_relocate [] hn hfsm (by simp)
    · rw [hup]
      exact normalizeBlock_nil
  · refine ⟨pre ++ (strSet ++ name ++ ['\n']
        ++ (str "    "
          ++ List.intercalate (str "\n    ") ((normalizeBlock inner).filter (fun l => l ≠ qpath))
          ++ str "\n") ++ [')']) ++ suf,
      str "    "
        ++ List.intercalate (str "\n    ") ((normalizeBlock inner).filter (fun l => l ≠ qpath))
        ++ str "\n", ?_, rfl, ?_, ?_⟩
    · rw [if_neg (by rw [isEmpty_false_of_ne' hup]; simp), shape_list,
        replace_block_tame _ hn hfsm
          (tame_canonical hn (tame_ib (fun e2 he2 => hte e2 (List.mem_of_mem_filter he2))))]
    · apply rebuilt_relocate _ hn hfsm
      apply ib_no_rpar
      intro e2 he2
      exact (hfgood e2 he2).2.2.2
    · apply normalizeBlock_rebuilt
      · exact hup
      · intro e2 he2
        obtain ⟨g1, g2, g3, -⟩ := hfgood e2 he2
        exact ⟨g1, g2, g3⟩

theorem write_keeps_block {name content pre m inner suf : Text} (ib : Text)
    (hn : ValidName name)
    (hfsm : findSetMatch name content = some (pre, m, inner, suf)) :
    (findSetMatch name
        (pre ++ getSubstitution m pre suf (strSet ++ name ++ ['\n'] ++ ib ++ [')']) ++ suf)).isSome
      = true := by
  have hsplit : (strSet ++ name ++ ['\n'] ++ ib ++ [')'] : Text)
      = (strSet ++ name ++ ['\n']) ++ (ib ++ [')']) := by
    simp [List.append_assoc]
  have hrp : ')' ∈ getSubstitution m pre suf (ib ++ [')']) :=
    gs_rpar (List.mem_append_right ib (List.mem_cons_self ')' []))
  have hsome := matchSetAt_isSome_head hn (List.mem_append_left suf hrp)
  obtain ⟨v, hv⟩ := Option.isSome_iff_exists.mp hsome
  apply fsm_isSome_of_at (j := pre.length) (v := v)
  have hdrop : (pre ++ getSubstitution m pre suf (strSet ++ name ++ ['\n'] ++ ib ++ [')'])
        ++ suf).drop pre.length
      = strSet ++ (name ++ '\n' :: (getSubstitution m pre suf (ib ++ [')']) ++ suf)) := by
    rw [hsplit, gs_app_nd m pre suf _ (no_dollar_head hn)]
    rw [List.append_assoc pre]
    rw [List.drop_left]
    simp [List.append_assoc]
  rw [hdrop]
  exact hv

end MakelistHelper

namespace MakelistHelper

/-- C1 (amended).  The no-op halves hold as stated: when the located
block's extracted entries contain the exact quoted relative path,
`addToCMake` returns `false` with no write, and when they do not,
`removeFromCMake` returns `false` with no write.  The derived
"running twice equals running once" needs amending on both sides: it
holds for `addToCMake` whenever the relative path contains no `)`, no
newline and no dollar-substitution pattern and every prior extracted
entry is free of dollar-substitution patterns, and for `removeFromCMake`
whenever every extracted entry is free of such patterns.  The `)`
condition is forced by the counterexample of a path containing `)` (the
regex's lazy inner group stops at the first `)`, so the inserted entry is
never seen as present); the dollar conditions are forced by
`GetSubstitution`: the rebuilt block is the replacement string of
`content.replace(matchedBlock, newBlock)`, so an entry such as `"x$&y"`
is expanded to contain the whole matched block and the second run
mutates the file again. -/
theorem claim1_idempotence_amended (name rel : Text) (hn : ValidName name) :
    (∀ content es, extractEntries name content = some es →
        ((quote rel ∈ es → addToCMake name (quote rel) content = none) ∧
          (quote rel ∉ es → removeFromCMake name (quote rel) content = none)))
  ∧ (')' ∉ rel → '\n' ∉ rel → DollarTame rel →
      ∀ content es c1, extractEntries name content = some es →
        (∀ e ∈ es, DollarTame e) →
        addToCMake name (quote rel) content = some c1 →
        addToCMake name (quote rel) c1 = none)
  ∧ (∀ content es c1, extractEntries name content = some es →
      (∀ e ∈ es, DollarTame e) →
      removeFromCMake name (quote rel) content = some c1 →
      removeFromCMake name (quote rel) c1 = none) := by
  refine ⟨?_, ?_, ?_⟩
  · intro content es hex
    unfold extractEntries at hex
    cases hfsm : findSetMatch name content with
    | none => rw [hfsm] at hex; cases hex
    | some v =>
      obtain ⟨pre, m, inner, suf⟩ := v
      rw [hfsm] at hex
      simp only [Option.map_some', Option.some.injEq] at hex
      subst hex
      exact ⟨fun hin => addToCMake_noop hfsm hin,
        fun hnin => removeFromCMake_noop hfsm hnin⟩
  · intro hrp hnl htr content es c1 hex hte hadd
    cases hfsm : findSetMatch name content with
    | none => rw [addToCMake_nomatch hfsm] at hadd; cases hadd
    | some v =>
      obtain ⟨pre, m, inner, suf⟩ := v
      have hes : es = normalizeBlock inner := by
        unfold extractEntries at hex
        rw [hfsm] at hex
        simp only [Option.map_some', Option.some.injEq] at hex
        exact hex.symm
      have hte2 : ∀ e ∈ normalizeBlock inner, DollarTame e :=
        fun e he => hte e (by rw [hes]; exact he)
      by_cases hmem : quote rel ∈ normalizeBlock inner
      · rw [addToCMake_noop hfsm hmem] at hadd; cases hadd
      · obtain ⟨ha, hf, hnb⟩ := add_then_state hn hrp hnl hfsm hmem hte2 htr
        rw [ha] at hadd
        injection hadd with hc1
        subst hc1
        apply addToCMake_noop hf
        rw [hnb]
        simp
  · intro content es c1 hex hte hrem
    cases hfsm : findSetMatch name content with
    | none => rw [removeFromCMake_nomatch hfsm] at hrem; cases hrem
    | some v =>
      obtain ⟨pre, m, inner, suf⟩ := v
      have hes : es = normalizeBlock inner := by
        unfold extractEntries at hex
        rw [hfsm] at hex
        simp only [Option.map_some', Option.some.injEq] at hex
        exact hex.symm
      have hte2 : ∀ e ∈ normalizeBlock inner, DollarTame e :=
        fun e he => hte e (by rw [hes]; exact he)
      by_cases hmem : quote rel ∈ normalizeBlock inner
      · obtain ⟨c1v, ib, hr, hc1eq, hf, hnb⟩ := remove_then_state hn hfsm hmem hte2
        rw [hr] at hrem
        injection hrem with he
        subst he
        apply removeFromCMake_noop hf
        rw [hnb]
        intro hc
        have hpred := List.of_mem_filter hc
        simp at hpred
      · rw [removeFromCMake_noop hfsm hmem] at hrem; cases hrem

theorem claim1_witness :
    addToCMake (str "SOURCES") (quote (str "a.cpp"))
        (str "set(SOURCES\n    \"a.cpp\"\n)") = none ∧
      removeFromCMake (str "SOURCES") (quote (str "b.cpp"))
        (str "set(SOURCES\n    \"a.cpp\"\n)") = none := by
  have h1 := claim1_idempotence_amended (str "SOURCES") (str "a.cpp") (by constructor <;> decide)
  have h2 := claim1_idempotence_amended (str "SOURCES") (str "b.cpp") (by constructor <;> decide)
  constructor
  · exact (h1.1 (str "set(SOURCES\n    \"a.cpp\"\n)") [str "\"a.cpp\""]
      (by decide)).1 (by decide)
  · exact (h2.1 (str "set(SOURCES\n    \"a.cpp\"\n)") [str "\"a.cpp\""]
      (by decide)).2 (by decide)

/-- C1 counterexample: with the relative path `a).cpp` — a legal file
name — a second `addToCMake` of the same file mutates the file again, so
add-twice differs from add-once, refuting the universally quantified
claim: after the first add the lazy regex group stops at the `)` inside
the inserted entry, so the entry is never seen as present.  And with a
prior entry `"x$&y"`, removing `b.cpp` writes a block in which
`GetSubstitution` has expanded the `$&` into the whole matched block
text — re-injecting `"b.cpp"` — so a second remove mutates the file
again, refuting the unconditional remove-twice half as well. -/
theorem claim1_counterexample :
    addToCMake (str "SOURCES") (quote (str "a).cpp")) (str "set(SOURCES\n)")
        = some (str "set(SOURCES\n    \"a).cpp\"\n)") ∧
      addToCMake (str "SOURCES") (quote (str "a).cpp"))
          (str "set(SOURCES\n    \"a).cpp\"\n)")
        = some (str "set(SOURCES\n    \"a\n    \"a).cpp\"\n).cpp\"\n)") ∧
      str "set(SOURCES\n    \"a\n    \"a).cpp\"\n).cpp\"\n)"
        ≠ str "set(SOURCES\n    \"a).cpp\"\n)" ∧
      removeFromCMake (str "SOURCES") (quote (str "b.cpp"))
          (str "set(SOURCES\n    \"x$&y\"\n    \"b.cpp\"\n)")
        = some (str "set(SOURCES\n    \"xset(SOURCES\n    \"x$&y\"\n    \"b.cpp\"\n)y\"\n)") ∧
      removeFromCMake (str "SOURCES") (quote (str "b.cpp"))
          (str "set(SOURCES\n    \"xset(SOURCES\n    \"x$&y\"\n    \"b.cpp\"\n)y\"\n)")
        ≠ none := by
  exact ⟨by decide, by decide, by decide, by decide, by decide⟩

/-- C2.  Span isolation: whenever `addToCMake` or `removeFromCMake`
performs a mutation (returns `true`), the written content is the old
content with exactly the matched `set(...)` span replaced: the text
before the match and the text after it are byte-for-byte unchanged. -/
theorem claim2_span_isolation (name qpath : Text) (hn : ValidName name) :
    (∀ content c2, addToCMake name qpath content = some c2 →
      ∃ pre m inner suf nb, findSetMatch name content = some (pre, m, inner, suf) ∧
        content = pre ++ m ++ suf ∧ c2 = pre ++ nb ++ suf)
  ∧ (∀ content c2, removeFromCMake name qpath content = some c2 →
      ∃ pre m inner suf nb, findSetMatch name content = some (pre, m, inner, suf) ∧
        content = pre ++ m ++ suf ∧ c2 = pre ++ nb ++ suf) := by
  constructor
  · intro content c2 hadd
    cases hfsm : findSetMatch name content with
    | none => rw [addToCMake_nomatch hfsm] at hadd; cases hadd
    | some v =>
      obtain ⟨pre, m, inner, suf⟩ := v
      by_cases hmem : qpath ∈ normalizeBlock inner
      · rw [addToCMake_noop hfsm hmem] at hadd; cases hadd
      · have hcontent := (fsm_split hfsm).1
        by_cases hnil : normalizeBlock inner = []
        · rw [addToCMake_run_empty hfsm hnil, replace_block _ hn hfsm] at hadd
          injection hadd with he
          exact ⟨pre, m, inner, suf, _, rfl, hcontent, he.symm⟩
        · rw [addToCMake_run_app hfsm hmem hnil, replace_block _ hn hfsm] at hadd
          injection hadd with he
          exact ⟨pre, m, inner, suf, _, rfl, hcontent, he.symm⟩
  · intro content c2 hrem
    cases hfsm : findSetMatch name content with
    | none => rw [removeFromCMake_nomatch hfsm] at hrem; cases hrem
    | some v =>
      obtain ⟨pre, m, inner, suf⟩ := v
      by_cases hmem : qpath ∈ normalizeBlock inner
      · rw [removeFromCMake_run hfsm hmem, replace_block _ hn hfsm] at hrem
        injection hrem with he
        exact ⟨pre, m, inner, suf, _, rfl, (fsm_split hfsm).1, he.symm⟩
      · rw [removeFromCMake_noop hfsm hmem] at hrem; cases hrem

theorem claim2_witness :
    ∃ pre m inner suf nb,
      findSetMatch (str "SOURCES") (str "x\nset(SOURCES\n    \"a.cpp\"\n)\ny")
          = some (pre, m, inner, suf) ∧
        str "x\nset(SOURCES\n    \"a.cpp\"\n)\ny" = pre ++ m ++ suf ∧
        str "x\nset(SOURCES\n    \"a.cpp\"\n    \"b.cpp\"\n)\ny" = pre ++ nb ++ suf :=
  (claim2_span_isolation (str "SOURCES") (quote (str "b.cpp")) (by constructor <;> decide)).1
    (str "x\nset(SOURCES\n    \"a.cpp\"\n)\ny")
    (str "x\nset(SOURCES\n    \"a.cpp\"\n    \"b.cpp\"\n)\ny") (by decide)

end MakelistHelper

namespace MakelistHelper

/-- C3 (amended).  Round-trip: when the manifest has a located block for
the target name and the quoted relative path is not among its extracted
entries, `addToCMake` then `removeFromCMake` of the same file yields a
document whose extracted, trimmed entry list for the block equals the one
before the add — provided the relative path contains no `)` and no
newline and neither the path nor any prior extracted entry contains a
dollar-substitution pattern.  The `)`/newline conditions are forced by
the counterexample of a path containing a newline (the inserted entry
cannot be re-extracted, the remove is a no-op, and the entry list keeps
the new entry's split lines); the dollar condition by `GetSubstitution`,
which expands a `$&` in a prior entry when the rebuilt block is written,
after which the remove reports the new entry absent and the extracted
list differs from the pre-add list. -/
theorem claim3_roundtrip_amended (name rel content : Text) (es : List Text)
    (hn : ValidName name) (hrp : ')' ∉ rel) (hnl : '\n' ∉ rel) (htr : DollarTame rel)
    (hex : extractEntries name content = some es) (hmem : quote rel ∉ es)
    (hte : ∀ e ∈ es, DollarTame e) :
    ∃ c1 c2, addToCMake name (quote rel) content = some c1 ∧
      removeFromCMake name (quote rel) c1 = some c2 ∧
      extractEntries name c2 = some es := by
  unfold extractEntries at hex
  cases hfsm : findSetMatch name content with
  | none => rw [hfsm] at hex; cases hex
  | some v =>
    obtain ⟨pre, m, inner, suf⟩ := v
    rw [hfsm] at hex
    simp only [Option.map_some', Option.some.injEq] at hex
    subst hex
    obtain ⟨ha, hf1, hnb1⟩ := add_then_state hn hrp hnl hfsm hmem hte htr
    have hmem1 : quote rel ∈ normalizeBlock (str "    "
        ++ List.intercalate (str "\n    ") (normalizeBlock inner ++ [quote rel])
        ++ str "\n") := by
      rw [hnb1]
      simp
    have hte1 : ∀ e2 ∈ normalizeBlock (str "    "
        ++ List.intercalate (str "\n    ") (normalizeBlock inner ++ [quote rel])
        ++ str "\n"), DollarTame e2 := by
      rw [hnb1]
      intro e2 he2
      rcases List.mem_append.mp he2 with h | h
      · exact hte e2 h
      · simp at h
        subst h
        exact tame_quote htr
    obtain ⟨c2, ib2, hr, hc2eq, hf2, hnb2⟩ := remove_then_state hn hf1 hmem1 hte1
    refine ⟨_, c2, ha, hr, ?_⟩
    rw [extractEntries_eq hf2, hnb2, hnb1]
    congr 1
    rw [List.filter_append]
    have h1 : (normalizeBlock inner).filter (fun l => l ≠ quote rel) = normalizeBlock inner := by
      refine List.filter_eq_self.mpr fun e he => ?_
      have hne : e ≠ quote rel := fun heq => hmem (heq ▸ he)
      simp [hne]
    rw [h1]
    simp

/-- C3 counterexample: for a file whose relative path contains a newline
(legal on Linux), the add inserts the entry but the subsequent remove
reports "not present" (the entry was split across two extracted lines),
and the extracted entry list after the round trip differs from the
original empty list.  And with a prior entry `"x$&y"` and the clean path
`b.cpp`, the add writes a block mangled by `GetSubstitution`, the remove
then reports `b.cpp` not present, and the extracted list after the round
trip differs from the pre-add list. -/
theorem claim3_counterexample :
    addToCMake (str "SOURCES") (quote (str "a\nb.cpp")) (str "set(SOURCES\n)")
        = some (str "set(SOURCES\n    \"a\nb.cpp\"\n)") ∧
      removeFromCMake (str "SOURCES") (quote (str "a\nb.cpp"))
          (str "set(SOURCES\n    \"a\nb.cpp\"\n)") = none ∧
      extractEntries (str "SOURCES") (str "set(SOURCES\n)") = some [] ∧
      extractEntries (str "SOURCES") (str "set(SOURCES\n    \"a\nb.cpp\"\n)")
        = some [str "\"a", str "b.cpp\""] ∧
      addToCMake (str "SOURCES") (quote (str "b.cpp")) (str "set(SOURCES\n    \"x$&y\"\n)")
        = some (str "set(SOURCES\n    \"xset(SOURCES\n    \"x$&y\"\n)y\"\n    \"b.cpp\"\n)") ∧
      removeFromCMake (str "SOURCES") (quote (str "b.cpp"))
          (str "set(SOURCES\n    \"xset(SOURCES\n    \"x$&y\"\n)y\"\n    \"b.cpp\"\n)")
        = none ∧
      extractEntries (str "SOURCES")
          (str "set(SOURCES\n    \"xset(SOURCES\n    \"x$&y\"\n)y\"\n    \"b.cpp\"\n)")
        = some [str "\"xset(SOURCES", str "\"x$&y\""] := by
  exact ⟨by decide, by decide, by decide, by decide, by decide, by decide, by decide⟩

theorem claim3_witness :
    ∃ c1 c2,
      addToCMake (str "SOURCES") (quote (str "b.cpp")) (str "set(SOURCES\n    \"a.cpp\"\n)")
          = some c1 ∧
        removeFromCMake (str "SOURCES") (quote (str "b.cpp")) c1 = some c2 ∧
        extractEntries (str "SOURCES") c2 = some [str "\"a.cpp\""] :=
  claim3_roundtrip_amended (str "SOURCES") (str "b.cpp")
    (str "set(SOURCES\n    \"a.cpp\"\n)") [str "\"a.cpp\""]
    (by constructor <;> decide) (by decide) (by decide)
    (tame_of_no_dollar (by decide)) (by decide) (by decide)
    (fun e he => by
      simp at he
      subst he
      exact tame_of_no_dollar (by decide))

/-- C4 (amended).  Order preservation: a successful insertion into a
block with at least one prior extracted entry rewrites the matched span
to a block that lists the prior entries in their original order, each on
its own indented line, with the new quoted path appended last — provided
no prior entry and not the new quoted path contains a
dollar-substitution pattern, the amendment forced by `GetSubstitution`:
the rebuilt block is the replacement string of `content.replace`, so a
prior entry such as `"x$&y"` is not carried over verbatim (the spec's
`a.cpp`/`b.cpp` scenario is the witness). -/
theorem claim4_order_amended (name qpath content pre m inner suf : Text) (es : List Text)
    (hn : ValidName name)
    (hfsm : findSetMatch name content = some (pre, m, inner, suf))
    (hes : normalizeBlock inner = es) (hne : es ≠ []) (hmem : qpath ∉ es)
    (hte : ∀ e ∈ es, DollarTame e) (htq : DollarTame qpath) :
    addToCMake name qpath content
      = some (pre ++ (strSet ++ name ++ str "\n    "
          ++ List.intercalate (str "\n    ") es
          ++ str "\n    " ++ qpath ++ str "\n)") ++ suf) := by
  subst hes
  have hents : ∀ e ∈ normalizeBlock inner ++ [qpath], DollarTame e := by
    intro e he
    rcases List.mem_append.mp he with h | h
    · exact hte e h
    · simp at h
      subst h
      exact htq
  rw [addToCMake_run_app hfsm hmem hne,
    shape_add_app name qpath (normalizeBlock inner) hne,
    replace_block_tame _ hn hfsm (tame_canonical hn (tame_ib hents))]

theorem claim4_witness :
    addToCMake (str "SOURCES") (quote (str "b.cpp")) (str "set(SOURCES\n    \"a.cpp\"\n)")
      = some (str "set(SOURCES\n    \"a.cpp\"\n    \"b.cpp\"\n)") := by
  have h := claim4_order_amended (str "SOURCES") (quote (str "b.cpp"))
    (str "set(SOURCES\n    \"a.cpp\"\n)") ([] : Text)
    (str "set(SOURCES\n    \"a.cpp\"\n)") (str "    \"a.cpp\"\n") ([] : Text)
    [str "\"a.cpp\""] (by constructor <;> decide) (by decide) (by decide)
    (by decide) (by decide)
    (fun e he => by
      simp at he
      subst he
      exact tame_of_no_dollar (by decide))
    (tame_of_no_dollar (by decide))
  exact h.trans (by decide)

/-- C4 counterexample: with the prior entry `"x$&y"` in the block, adding
`b.cpp` succeeds but writes a block in which the prior entry is not
listed verbatim: `GetSubstitution` expands the `$&` into the whole
matched block text, so the written document differs from the claimed
prior-entries-in-order-then-new-path listing. -/
theorem claim4_counterexample :
    addToCMake (str "SOURCES") (quote (str "b.cpp")) (str "set(SOURCES\n    \"x$&y\"\n)")
        = some (str "set(SOURCES\n    \"xset(SOURCES\n    \"x$&y\"\n)y\"\n    \"b.cpp\"\n)") ∧
      extractEntries (str "SOURCES") (str "set(SOURCES\n    \"x$&y\"\n)")
        = some [str "\"x$&y\""] ∧
      str "set(SOURCES\n    \"xset(SOURCES\n    \"x$&y\"\n)y\"\n    \"b.cpp\"\n)"
        ≠ str "set(SOURCES\n    \"x$&y\"\n    \"b.cpp\"\n)" := by
  exact ⟨by decide, by decide, by decide⟩

/-- C5.  Block-missing insertion outcome: when the block-location regex
finds no `set(NAME ...)` block, `addToCMake` returns `false` without
writing and without creating the block (the `none` result means no write
at all); block synthesis only happens in the separate
`createMissingSetBlocks`, which the command handler runs after the user
confirms the "Missing set blocks" error prompt. -/
theorem claim5_block_missing (name qpath content : Text)
    (h : findSetMatch name content = none) :
    addToCMake name qpath content = none :=
  addToCMake_nomatch h

theorem claim5_witness :
    addToCMake (str "HEADERS") (quote (str "a.h")) (str "project(x)\nset(SOURCES\n)") = none :=
  claim5_block_missing (str "HEADERS") (quote (str "a.h"))
    (str "project(x)\nset(SOURCES\n)") (by decide)

/-- C6.  Removal never deletes the block: when the located block's only
extracted entry is the target quoted path, `removeFromCMake` returns
`true` and rewrites the span to the empty shell `set(NAME\n)`; moreover
whenever `removeFromCMake` writes, the written document still contains a
block matched by the same regex. -/
theorem claim6_remove_keeps_block (name qpath content : Text) (hn : ValidName name) :
    (∀ pre m inner suf, findSetMatch name content = some (pre, m, inner, suf) →
      normalizeBlock inner = [qpath] →
      removeFromCMake name qpath content
        = some (pre ++ (strSet ++ name ++ str "\n)") ++ suf))
  ∧ (∀ c2, removeFromCMake name qpath content = some c2 →
      (findSetMatch name c2).isSome = true) := by
  constructor
  · intro pre m inner suf hfsm hes
    have hmem : qpath ∈ normalizeBlock inner := by
      rw [hes]
      simp
    rw [removeFromCMake_run hfsm hmem]
    have hfilter : (normalizeBlock inner).filter (fun l => l ≠ qpath) = [] := by
      rw [hes]
      simp
    rw [if_pos (by rw [hfilter]; rfl)]
    rw [shape_shell, replace_block_tame _ hn hfsm (tame_canonical hn tame_nil)]
  · intro c2 hrem
    cases hfsm : findSetMatch name content with
    | none => rw [removeFromCMake_nomatch hfsm] at hrem; cases hrem
    | some v =>
      obtain ⟨pre, m, inner, suf⟩ := v
      by_cases hmem : qpath ∈ normalizeBlock inner
      · rw [removeFromCMake_run hfsm hmem] at hrem
        by_cases hup : ((normalizeBlock inner).filter (fun l => l ≠ qpath)).isEmpty = true
        · rw [if_pos hup, shape_shell, replace_block _ hn hfsm] at hrem
          injection hrem with he
          subst he
          exact write_keeps_block _ hn hfsm
        · rw [if_neg hup, shape_list, replace_block _ hn hfsm] at hrem
          injection hrem with he
          subst he
          exact write_keeps_block _ hn hfsm
      · rw [removeFromCMake_noop hfsm hmem] at hrem; cases hrem

theorem claim6_witness :
    removeFromCMake (str "SOURCES") (quote (str "a.cpp")) (str "set(SOURCES\n    \"a.cpp\"\n)")
      = some (str "set(SOURCES\n)") := by
  have h := (claim6_remove_keeps_block (str "SOURCES") (quote (str "a.cpp"))
      (str "set(SOURCES\n    \"a.cpp\"\n)") (by constructor <;> decide)).1
    ([] : Text) (str "set(SOURCES\n    \"a.cpp\"\n)") (str "    \"a.cpp\"\n") ([] : Text)
    (by decide) (by decide)
  exact h.trans (by decide)

end MakelistHelper

namespace MakelistHelper

theorem matchSetShapeAt_decomp {s m rest : Text} (h : matchSetShapeAt s = some (m, rest)) :
    s = m ++ rest ∧ IsSetShape m := by
  unfold matchSetShapeAt at h
  by_cases h1 : strSet <+: s
  case neg => rw [if_neg h1] at h; cases h
  rw [if_pos h1] at h
  by_cases h2 : ((s.drop 4).takeWhile (fun d => d ≠ ')')).isEmpty = true
  case pos => rw [if_pos h2] at h; cases h
  rw [if_neg h2] at h
  cases hd : (s.drop 4).dropWhile (fun d => d ≠ ')') with
  | nil => rw [hd] at h; cases h
  | cons r s5 =>
    rw [hd] at h
    simp only [Option.some.injEq, Prod.mk.injEq] at h
    obtain ⟨hm, hr⟩ := h
    have hrp : r = ')' := by
      have := dropWhile_head_false (p := fun d => decide (d ≠ ')')) (by rw [hd]; rfl)
      simpa using this
    subst hrp
    subst hr
    constructor
    · have e1 := pfx_drop h1
      rw [strSet_len] at e1
      rw [← hm]
      conv_lhs => rw [e1]
      conv_lhs =>
        rw [show s.drop 4 = (s.drop 4).takeWhile (fun d => decide (d ≠ ')'))
            ++ (s.drop 4).dropWhile (fun d => decide (d ≠ ')')) from
          (List.takeWhile_append_dropWhile _ _).symm, hd]
      simp [List.append_assoc]
    · refine ⟨(s.drop 4).takeWhile (fun d => d ≠ ')'), hm.symm, ?_, ?_⟩
      · intro hz
        rw [hz] at h2
        exact h2 rfl
      · intro hc
        have := List.mem_takeWhile_imp hc
        simp at this

theorem fss_split {s p m r : Text} (h : findSetShape s = some (p, m, r)) :
    s = p ++ m ++ r ∧ IsSetShape m := by
  induction s generalizing p m r with
  | nil => cases h
  | cons c rest ih =>
    simp only [findSetShape] at h
    cases hma : matchSetShapeAt (c :: rest) with
    | some v =>
      obtain ⟨m2, r2⟩ := v
      rw [hma] at h
      simp only [Option.some.injEq, Prod.mk.injEq] at h
      obtain ⟨h1, h2, h3⟩ := h
      subst h1
      subst h2
      subst h3
      obtain ⟨hs, hsh⟩ := matchSetShapeAt_decomp hma
      exact ⟨by simpa using hs, hsh⟩
    | none =>
      rw [hma] at h
      cases hf : findSetShape rest with
      | none => rw [hf] at h; cases h
      | some w =>
        obtain ⟨p2, m2, r2⟩ := w
        rw [hf] at h
        simp only [Option.some.injEq, Prod.mk.injEq] at h
        obtain ⟨h1, h2, h3⟩ := h
        subst h2
        subst h3
        subst h1
        obtain ⟨hs, hsh⟩ := ih hf
        exact ⟨by rw [hs]; simp, hsh⟩

theorem IsSetShape.ne_nil {sh : Text} (h : IsSetShape sh) : sh ≠ [] := by
  obtain ⟨run, rfl, -, -⟩ := h
  simp [strSet]

theorem lsse_none_iff {s : Text} {fuel : Nat} (hle : s.length ≤ fuel) :
    lastSetShapeEndAux fuel s = none ↔ findSetShape s = none := by
  cases fuel with
  | zero =>
    have hz : s = [] := List.length_eq_zero.mp (Nat.le_zero.mp hle)
    subst hz
    simp [lastSetShapeEndAux, findSetShape]
  | succ f =>
    simp only [lastSetShapeEndAux]
    cases hfs : findSetShape s with
    | none => simp
    | some v =>
      obtain ⟨p, m, r⟩ := v
      simp

theorem lsse_aux_decomp : ∀ (fuel : Nat) (s : Text) (e : Nat), s.length ≤ fuel →
    lastSetShapeEndAux fuel s = some e →
    ∃ A sh B, s = A ++ sh ++ B ∧ e = A.length + sh.length ∧ IsSetShape sh ∧
      findSetShape B = none := by
  intro fuel
  induction fuel with
  | zero =>
    intro s e hle h
    cases h
  | succ f ih =>
    intro s e hle h
    simp only [lastSetShapeEndAux] at h
    cases hfs : findSetShape s with
    | none => rw [hfs] at h; cases h
    | some v =>
      obtain ⟨p, m, r⟩ := v
      rw [hfs] at h
      injection h with he
      obtain ⟨hs, hsh⟩ := fss_split hfs
      have hmne : m ≠ [] := hsh.ne_nil
      have hlen : s.length = p.length + m.length + r.length := by
        rw [hs]
        simp [List.length_append]
        omega
      have hmpos : 0 < m.length := List.length_pos.mpr hmne
      have hrle : r.length ≤ f := by omega
      cases haux : lastSetShapeEndAux f r with
      | none =>
        rw [haux] at he
        refine ⟨p, m, r, hs, by simpa using he.symm, hsh, ?_⟩
        exact (lsse_none_iff hrle).mp haux
      | some e2 =>
        rw [haux] at he
        obtain ⟨A2, sh2, B2, hr2, he2, hsh2, hB2⟩ := ih r e2 hrle haux
        refine ⟨p ++ m ++ A2, sh2, B2, ?_, ?_, hsh2, hB2⟩
        · rw [hs, hr2]
          simp [List.append_assoc]
        · simp only [Option.getD_some] at he
          rw [← he, he2]
          simp [List.length_append]
          omega

theorem lastSetShapeEnd_decomp {content : Text} {e : Nat}
    (h : lastSetShapeEnd content = some e) :
    ∃ A sh B, content = A ++ sh ++ B ∧ e = A.length + sh.length ∧ IsSetShape sh ∧
      findSetShape B = none :=
  lsse_aux_decomp content.length content e (Nat.le_refl _) h

theorem lastSetShapeEnd_none_iff {content : Text} :
    lastSetShapeEnd content = none ↔ findSetShape content = none :=
  lsse_none_iff (Nat.le_refl _)

theorem matchProjectAt_decomp {s m rest : Text} (h : matchProjectAt s = some (m, rest)) :
    s = m ++ rest ∧ ∃ run, m = strProject ++ run ++ [')'] ∧ run ≠ [] ∧ ')' ∉ run := by
  unfold matchProjectAt at h
  by_cases h1 : strProject <+: s
  case neg => rw [if_neg h1] at h; cases h
  rw [if_pos h1] at h
  by_cases h2 : ((s.drop strProject.length).takeWhile (fun d => d ≠ ')')).isEmpty = true
  case pos => rw [if_pos h2] at h; cases h
  rw [if_neg h2] at h
  cases hd : (s.drop strProject.length).dropWhile (fun d => d ≠ ')') with
  | nil => rw [hd] at h; cases h
  | cons r s5 =>
    rw [hd] at h
    simp only [Option.some.injEq, Prod.mk.injEq] at h
    obtain ⟨hm, hr⟩ := h
    have hrp : r = ')' := by
      have := dropWhile_head_false (p := fun d => decide (d ≠ ')')) (by rw [hd]; rfl)
      simpa using this
    subst hrp
    subst hr
    constructor
    · have e1 := pfx_drop h1
      rw [← hm]
      conv_lhs => rw [e1]
      conv_lhs =>
        rw [show s.drop strProject.length
            = (s.drop strProject.length).takeWhile (fun d => decide (d ≠ ')'))
              ++ (s.drop strProject.length).dropWhile (fun d => decide (d ≠ ')')) from
          (List.takeWhile_append_dropWhile _ _).symm, hd]
      simp [List.append_assoc]
    · refine ⟨(s.drop strProject.length).takeWhile (fun d => d ≠ ')'), hm.symm, ?_, ?_⟩
      · intro hz
        rw [hz] at h2
        exact h2 rfl
      · intro hc
        have := List.mem_takeWhile_imp hc
        simp at this

theorem fpm_split {s p m r : Text} (h : findProjectMatch s = some (p, m, r)) :
    s = p ++ m ++ r ∧ ∃ run, m = strProject ++ run ++ [')'] ∧ run ≠ [] ∧ ')' ∉ run := by
  induction s generalizing p m r with
  | nil => cases h
  | cons c rest ih =>
    simp only [findProjectMatch] at h
    cases hma : matchProjectAt (c :: rest) with
    | some v =>
      obtain ⟨m2, r2⟩ := v
      rw [hma] at h
      simp only [Option.some.injEq, Prod.mk.injEq] at h
      obtain ⟨h1, h2, h3⟩ := h
      subst h1
      subst h2
      subst h3
      obtain ⟨hs, hsh⟩ := matchProjectAt_decomp hma
      exact ⟨by simpa using hs, hsh⟩
    | none =>
      rw [hma] at h
      cases hf : findProjectMatch rest with
      | none => rw [hf] at h; cases h
      | some w =>
        obtain ⟨p2, m2, r2⟩ := w
        rw [hf] at h
        simp only [Option.some.injEq, Prod.mk.injEq] at h
        obtain ⟨h1, h2, h3⟩ := h
        subst h2
        subst h3
        subst h1
        obtain ⟨hs, hsh⟩ := ih hf
        exact ⟨by rw [hs]; simp, hsh⟩

end MakelistHelper

namespace MakelistHelper

/-- C7.  Block-synthesis insertion point: `createMissingSetBlocks` inserts
all synthesized empty `set(NAME\n)` blocks together, in order, at one
point chosen by priority: right after the last `set(...)` shape found by
the loose scan (the decomposition below exhibits that shape with no
further shape after it), else right after the `project(...)` declaration,
else at the very top; with the `\n\n` padding before the blocks mid-file
and a trailing blank-line pair at the top.  The last conjunct shows the
concatenated block text for two names, in order. -/
theorem claim7_block_synthesis (blocks : List Text) (content : Text) :
    (∀ e, lastSetShapeEnd content = some e →
      ∃ A sh B, content = A ++ sh ++ B ∧ IsSetShape sh ∧ findSetShape B = none ∧
        createMissingSetBlocks blocks content
          = A ++ sh ++ str "\n\n" ++ blocksText blocks ++ B)
  ∧ (lastSetShapeEnd content = none →
      ∀ pre m suf, findProjectMatch content = some (pre, m, suf) →
        content = pre ++ m ++ suf ∧
          createMissingSetBlocks blocks content
            = pre ++ m ++ str "\n\n" ++ blocksText blocks ++ suf)
  ∧ (lastSetShapeEnd content = none → findProjectMatch content = none →
      createMissingSetBlocks blocks content = blocksText blocks ++ str "\n\n" ++ content)
  ∧ (lastSetShapeEnd content = none ↔ findSetShape content = none)
  ∧ blocksText [str "HEADERS", str "RESOURCES"]
      = str "set(HEADERS\n)\n\nset(RESOURCES\n)\n" := by
  refine ⟨?_, ?_, ?_, lastSetShapeEnd_none_iff, by decide⟩
  · intro e he
    obtain ⟨A, sh, B, hc, he2, hsh, hB⟩ := lastSetShapeEnd_decomp he
    refine ⟨A, sh, B, hc, hsh, hB, ?_⟩
    unfold createMissingSetBlocks
    rw [he]
    show content.take e ++ str "\n\n" ++ blocksText blocks ++ content.drop e = _
    subst he2
    rw [hc]
    rw [show (A ++ sh ++ B : Text) = (A ++ sh) ++ B from by simp [List.append_assoc]]
    rw [show A.length + sh.length = (A ++ sh).length from (List.length_append A sh).symm]
    rw [List.take_left, List.drop_left]
  · intro hnone pre m suf hproj
    refine ⟨(fpm_split hproj).1, ?_⟩
    unfold createMissingSetBlocks
    rw [hnone, hproj]
  · intro hnone hproj
    unfold createMissingSetBlocks
    rw [hnone, hproj]

theorem claim7_witness :
    ∃ A sh B,
      str "project(x)\nset(SOURCES\n    \"a.cpp\"\n)\nend" = A ++ sh ++ B ∧
        IsSetShape sh ∧ findSetShape B = none ∧
        createMissingSetBlocks [str "HEADERS"]
            (str "project(x)\nset(SOURCES\n    \"a.cpp\"\n)\nend")
          = A ++ sh ++ str "\n\n" ++ blocksText [str "HEADERS"] ++ B :=
  (claim7_block_synthesis [str "HEADERS"]
    (str "project(x)\nset(SOURCES\n    \"a.cpp\"\n)\nend")).1 36 (by decide)

/-- C8.  Include-directory asymmetry: with no `include_directories(...)`
block present, `addIncludeDirectory` creates the block inline in the same
call — after `project(...)` when present, else at the top of the file —
containing the composite entry `${CMAKE_CURRENT_SOURCE_DIR}/<rel>`, and
returns `true`; when the block exists and already lists that exact
composite entry it returns `false` with no write. -/
theorem claim8_include_asymmetry (rel content : Text) :
    (findIncludeMatch content = none →
      ∀ pre m suf, findProjectMatch content = some (pre, m, suf) →
        content = pre ++ m ++ suf ∧
          addIncludeDirectory (includeEntry rel) content
            = some (pre ++ m ++ str "\n\ninclude_directories(\n    "
                ++ includeEntry rel ++ str "\n)" ++ suf))
  ∧ (findIncludeMatch content = none → findProjectMatch content = none →
      addIncludeDirectory (includeEntry rel) content
        = some (str "include_directories(\n    " ++ includeEntry rel
            ++ str "\n)\n\n" ++ content))
  ∧ (∀ pre m inner suf, findIncludeMatch content = some (pre, m, inner, suf) →
      includeEntry rel ∈ normalizeBlock inner →
      addIncludeDirectory (includeEntry rel) content = none) := by
  refine ⟨?_, ?_, ?_⟩
  · intro hnone pre m suf hproj
    refine ⟨(fpm_split hproj).1, ?_⟩
    unfold addIncludeDirectory
    rw [hnone, hproj]
  · intro hnone hproj
    unfold addIncludeDirectory
    rw [hnone, hproj]
  · intro pre m inner suf hfind hmem
    unfold addIncludeDirectory
    rw [hfind]
    show (if includeEntry rel ∈ normalizeBlock inner then none else _) = none
    rw [if_pos hmem]

theorem claim8_witness :
    (str "project(x)\nfoo" = str "project(x)" ++ str "\nfoo" ∧
      addIncludeDirectory (includeEntry (str "inc")) (str "project(x)\nfoo")
        = some (str "project(x)" ++ str "\n\ninclude_directories(\n    "
            ++ includeEntry (str "inc") ++ str "\n)" ++ str "\nfoo")) ∧
      addIncludeDirectory (includeEntry (str "inc")) (str "foo")
        = some (str "include_directories(\n    " ++ includeEntry (str "inc")
            ++ str "\n)\n\n" ++ str "foo") ∧
      addIncludeDirectory (includeEntry (str "inc"))
        (str "include_directories(\n    $\x7bCMAKE_CURRENT_SOURCE_DIR\x7d/inc\n)") = none := by
  refine ⟨?_, ?_, ?_⟩
  · have h := (claim8_include_asymmetry (str "inc") (str "project(x)\nfoo")).1 (by decide)
      ([] : Text) (str "project(x)") (str "\nfoo") (by decide)
    constructor
    · have h1 := h.1
      simpa using h1
    · have h2 := h.2
      simpa using h2
  · exact (claim8_include_asymmetry (str "inc") (str "foo")).2.1 (by decide) (by decide)
  · exact (claim8_include_asymmetry (str "inc")
      (str "include_directories(\n    $\x7bCMAKE_CURRENT_SOURCE_DIR\x7d/inc\n)")).2.2
      ([] : Text) (str "include_directories(\n    $\x7bCMAKE_CURRENT_SOURCE_DIR\x7d/inc\n)")
      (str "\n    $\x7bCMAKE_CURRENT_SOURCE_DIR\x7d/inc\n") ([] : Text)
      (by decide) (by decide)

end MakelistHelper

namespace MakelistHelper

theorem ancestors_nil : ancestors [] = [[]] := rfl

theorem ancestors_cons (a : String) (t : List String) :
    ancestors (a :: t) = (a :: t) :: ancestors (a :: t).dropLast := by
  unfold ancestors
  have hrange : (List.range ((a :: t).length + 1)).reverse
      = (a :: t).length :: (List.range (a :: t).length).reverse := by
    rw [List.range_succ, List.reverse_append]
    rfl
  rw [hrange]
  rw [List.map_cons]
  rw [List.take_length]
  congr 1
  have hlen : (a :: t).dropLast.length = t.length := by
    simp
  rw [hlen]
  show (List.range (t.length + 1)).reverse.map (fun k => (a :: t).take k) = _
  apply List.map_congr_left
  intro k hk
  rw [List.mem_reverse, List.mem_range] at hk
  rw [List.dropLast_eq_take]
  rw [List.take_take]
  congr 1
  simp
  omega

theorem fcl_aux_spec (hasManifest : List String → Bool) (wf : List String) :
    ∀ (n : Nat) (d : List String), d.length ≤ n →
    findCMakeListsAux hasManifest wf n d
      = (((ancestors d).takeWhile (fun x => x ≠ [] ∧ wf <+: x)).filter hasManifest).map
          (fun x => x ++ [cmakeName]) := by
  intro n
  induction n with
  | zero =>
    intro d hle
    have hz : d = [] := List.length_eq_zero.mp (Nat.le_zero.mp hle)
    subst hz
    simp [findCMakeListsAux, ancestors_nil, List.takeWhile_cons]
  | succ f ih =>
    intro d hle
    cases d with
    | nil => simp [findCMakeListsAux, ancestors_nil, List.takeWhile_cons]
    | cons a t =>
      simp only [findCMakeListsAux]
      rw [ancestors_cons]
      by_cases hcond : (a :: t) ≠ [] ∧ wf <+: (a :: t)
      · rw [if_pos hcond]
        rw [List.takeWhile_cons]
        rw [if_pos (show decide ((a :: t) ≠ [] ∧ wf <+: (a :: t)) = true by
          simp only [decide_eq_true_eq]
          exact hcond)]
        rw [List.filter_cons]
        have hlen2 : (a :: t).dropLast.length ≤ f := by
          rw [List.length_dropLast]
          simp only [List.length_cons] at hle ⊢
          omega
        rw [ih (a :: t).dropLast hlen2]
        cases hm : hasManifest (a :: t) with
        | true => simp [hm]
        | false => simp [hm]
      · rw [if_neg hcond]
        rw [List.takeWhile_cons]
        rw [if_neg (show ¬ decide ((a :: t) ≠ [] ∧ wf <+: (a :: t)) = true by
          simp only [decide_eq_true_eq]
          exact hcond)]
        simp

set_option maxRecDepth 8192 in
/-- C9.  Manifest search: with no owning workspace folder the walk yields
nothing; with a workspace folder `wf` it returns `CMakeLists.txt` paths
for exactly the ancestors of the start directory that are nonroot, inside
`wf`, and contain a manifest — nearest first (the ancestor chain is
walked longest-prefix first).  The last conjunct is the spec scenario:
starting three directories below the workspace root with manifests at the
root and the middle directory only, exactly those two paths come back,
middle directory first. -/
theorem claim9_manifest_search (hasManifest : List String → Bool) (wf start : List String) :
    findCMakeLists hasManifest none start = []
  ∧ findCMakeLists hasManifest (some wf) start
      = (((ancestors start).takeWhile (fun d => d ≠ [] ∧ wf <+: d)).filter hasManifest).map
          (fun d => d ++ [cmakeName])
  ∧ findCMakeLists (fun d => d = ["w"] || d = ["w", "a", "b"]) (some ["w"]) ["w", "a", "b", "c"]
      = [["w", "a", "b", "CMakeLists.txt"], ["w", "CMakeLists.txt"]] := by
  refine ⟨rfl, ?_, by decide⟩
  unfold findCMakeLists
  exact fcl_aux_spec hasManifest wf start.length start (Nat.le_refl _)

set_option maxRecDepth 16384 in
/-- C10.  Exact-spelling presence test: the membership check compares the
computed entry string against each trimmed block line by string equality,
so a line naming the same file under another spelling — a `./` prefix, a
backslash separator, or different case — is treated as absent:
`removeFromCMake` reports it not present, and `addToCMake` appends a
second entry for the same file; likewise for the include-directory
operations with a `./`-spelled composite entry. -/
theorem claim10_exact_membership :
    removeFromCMake (str "SOURCES") (quote (str "a.cpp"))
        (str "set(SOURCES\n    \"./a.cpp\"\n)") = none
  ∧ removeFromCMake (str "SOURCES") (quote (str "d/e.cpp"))
        (str "set(SOURCES\n    \"d\\e.cpp\"\n)") = none
  ∧ removeFromCMake (str "SOURCES") (quote (str "a.cpp"))
        (str "set(SOURCES\n    \"A.CPP\"\n)") = none
  ∧ addToCMake (str "SOURCES") (quote (str "a.cpp"))
        (str "set(SOURCES\n    \"./a.cpp\"\n)")
      = some (str "set(SOURCES\n    \"./a.cpp\"\n    \"a.cpp\"\n)")
  ∧ removeIncludeDirectory (includeEntry (str "inc"))
        (str "include_directories(\n    $\x7bCMAKE_CURRENT_SOURCE_DIR\x7d/./inc\n)") = none
  ∧ addIncludeDirectory (includeEntry (str "inc"))
        (str "include_directories(\n    $\x7bCMAKE_CURRENT_SOURCE_DIR\x7d/./inc\n)")
      = some (str "include_directories(\n    $\x7bCMAKE_CURRENT_SOURCE_DIR\x7d/./inc\n    $\x7bCMAKE_CURRENT_SOURCE_DIR\x7d/inc\n)") := by
  exact ⟨by decide, by decide, by decide, by decide, by decide, by decide⟩

end MakelistHelper
